import Mathlib

/-!
Shallow embedding of the spectral multi-tone tracking core of sinDet
(src/main.c): the per-frame pipeline that masks and squelches the power
spectrum, extracts peaks with non-maximum suppression, assigns them to
persistent tracks with a timing state machine, and decodes tone durations
into Morse-like symbols.

Modelling conventions:
* C `double` values (powers, frequencies, purities, the dot-length
  estimate) are modelled as `ℚ`; source decimal literals such as `0.7`
  become the exact rationals they denote (`7/10`).
* `Uint32` millisecond timestamps from `SDL_GetTicks` are modelled as `ℕ`
  with truncated subtraction; this agrees with the C unsigned subtraction
  on the monotone timestamps the program actually sees (no 49-day
  wraparound is modelled).
* The fixed-size C arrays (`powers[FFT_SIZE/2]`, `tracks[5]`,
  `morse_buffer[256]`) become lists; loop bounds are taken from the list
  length exactly as the C loops take them from the array size.
-/

namespace SinDet

/-- `SAMPLE_RATE` from src/main.c. -/
def SAMPLE_RATE : ℚ := 44100

/-- `FFT_SIZE` (= `CHUNK_SIZE`) from src/main.c. -/
def FFT_SIZE : ℕ := 2048

/-- Number of spectrum bins, `FFT_SIZE / 2`. -/
def halfSize : ℕ := FFT_SIZE / 2

/-- `DETECT_THRESHOLD` (0.7) from src/main.c. -/
def DETECT_THRESHOLD : ℚ := 7/10

/-- `FREQUENCY_TOLERANCE` (5.0 Hz) from src/main.c. -/
def FREQUENCY_TOLERANCE : ℚ := 5

/-- `PEAK_SUPPRESS_BINS` (2) from src/main.c. -/
def PEAK_SUPPRESS_BINS : ℕ := 2

/-- `MAX_TRACKED_SINES` (5) from src/main.c. -/
def MAX_TRACKED_SINES : ℕ := 5

/-- `MORSE_BUFFER_SIZE` (256) from src/main.c. -/
def MORSE_BUFFER_SIZE : ℕ := 256

/-- `DOT_EST_ALPHA` (0.2) from src/main.c. -/
def DOT_EST_ALPHA : ℚ := 1/5

/-- `AVERAGING_ALPHA` (0.1) from src/main.c. -/
def AVERAGING_ALPHA : ℚ := 1/10

/-- `freq_resolution = SAMPLE_RATE / FFT_SIZE` computed in `main`. -/
def freq_resolution : ℚ := SAMPLE_RATE / (FFT_SIZE : ℚ)

/-- `max_possible_power = (FFT_SIZE/4)^2` computed in `audio_callback`. -/
def max_possible_power : ℚ := ((FFT_SIZE : ℚ) / 4) * ((FFT_SIZE : ℚ) / 4)

/-- The `SineTrack` struct of src/main.c.  `start_time` is what the spec
calls `pending_since` (non-zero marks a claimed slot). -/
structure SineTrack where
  freq : ℚ
  purity : ℚ
  start_time : ℕ
  last_seen : ℕ
  tone_start : ℕ
  active : Bool
deriving DecidableEq

/-- A zeroed track slot, matching the C static zero-initialisation of
`tracks[MAX_TRACKED_SINES]`. -/
def emptyTrack : SineTrack :=
  { freq := 0, purity := 0, start_time := 0, last_seen := 0, tone_start := 0, active := false }

instance : Inhabited SineTrack := ⟨emptyTrack⟩

/-- The match test of the first loop of `update_track`:
`tracks[i].start_time != 0 && fabs(tracks[i].freq - freq) <= FREQUENCY_TOLERANCE`. -/
def trackMatches (freq : ℚ) (t : SineTrack) : Bool :=
  decide (t.start_time ≠ 0 ∧ |t.freq - freq| ≤ FREQUENCY_TOLERANCE)

/-- Index of the first list element satisfying `p`, mirroring a C
`for`-loop with `break`. -/
def findFirstIdx {α : Type} (p : α → Bool) : List α → Option ℕ
  | [] => none
  | a :: as => if p a then some 0 else (findFirstIdx p as).map (· + 1)

/-- The matched-track update branch of `update_track` (smoothing branch,
`start_time != 0`). -/
def smoothedUpdate (t : SineTrack) (freq purity : ℚ) (now : ℕ) : SineTrack :=
  { t with freq := t.freq * (9/10) + freq * (1/10), purity := purity * 100, last_seen := now }

/-- The empty-slot initialisation branch of `update_track`
(`start_time == 0`). -/
def freshTrack (freq purity : ℚ) (now : ℕ) : SineTrack :=
  { freq := freq, purity := purity * 100, start_time := now, last_seen := now,
    tone_start := 0, active := false }

/-- `update_track` from src/main.c: first look for a non-empty track within
`FREQUENCY_TOLERANCE`; failing that, for the first empty slot; the matched
slot is smoothed, a claimed empty slot is freshly initialised, and with no
slot at all the peak is discarded.  (In the C code both searches feed the
same `match` variable and the branch on `start_time == 0` separates the
two cases; the searches guarantee which branch runs.) -/
def update_track (tracks : List SineTrack) (freq purity : ℚ) (now : ℕ) : List SineTrack :=
  match findFirstIdx (trackMatches freq) tracks with
  | some i => tracks.set i (smoothedUpdate (tracks.getD i default) freq purity now)
  | none =>
    match findFirstIdx (fun t => t.start_time == 0) tracks with
    | some j => tracks.set j (freshTrack freq purity now)
    | none => tracks

/-- One pass of the inner peak-scan loop of `audio_callback`
(`for i = 1; i < FFT_SIZE/2 - 1; ++i`): the accumulator holds the C
variables `(best, best_power)`, with `best = -1` rendered as `none`. -/
def bestAux (powers : List ℚ) (used : List Bool) :
    List ℕ → Option ℕ → ℚ → Option ℕ × ℚ
  | [], best, bp => (best, bp)
  | i :: rest, best, bp =>
    if used.getD i false then bestAux powers used rest best bp
    else
      if powers.getD i 0 > bp ∧ powers.getD (i - 1) 0 < powers.getD i 0 ∧
          powers.getD (i + 1) 0 ≤ powers.getD i 0 then
        bestAux powers used rest (some i) (powers.getD i 0)
      else bestAux powers used rest best bp

/-- The full inner scan: highest-power unused strict-left / ge-right local
maximum over bins `1 .. length - 2`, starting from `best = -1` and
`best_power = 0`. -/
def bestBin (powers : List ℚ) (used : List Bool) : Option ℕ :=
  (bestAux powers used (List.range' 1 (powers.length - 2)) none 0).1

/-- Suppression marking, recursing with the running bin index `k`:
`used[k] = true` for every existing index with `|k - best| ≤ PEAK_SUPPRESS_BINS`
(the C loop clamps `k` to the valid range; restricting to existing indices
does the same). -/
def markFrom (best : ℕ) : ℕ → List Bool → List Bool
  | _, [] => []
  | k, u :: us =>
    (if best ≤ k + PEAK_SUPPRESS_BINS ∧ k ≤ best + PEAK_SUPPRESS_BINS then true else u) ::
      markFrom best (k + 1) us

/-- Mark all bins within `±PEAK_SUPPRESS_BINS` of `best` as used. -/
def markUsed (used : List Bool) (best : ℕ) : List Bool :=
  markFrom best 0 used

/-- The outer peak loop of `audio_callback` (`for p = 0; p < MAX_TRACKED_SINES`):
each round takes the best unused bin, records it and suppresses its
neighbourhood, breaking as soon as no bin qualifies.  The result is the
list of recorded `top_indices` (the C `-1` fill never reaches the
qualification loop). -/
def findPeaksAux (powers : List ℚ) : ℕ → List Bool → List ℕ
  | 0, _ => []
  | k + 1, used =>
    match bestBin powers used with
    | none => []
    | some best => best :: findPeaksAux powers k (markUsed used best)

/-- Peak extraction for one frame, starting from an all-false `used` array. -/
def findPeaks (powers : List ℚ) : List ℕ :=
  findPeaksAux powers MAX_TRACKED_SINES (List.replicate powers.length false)

/-- The `used` array obtained after recording the peaks in `peaks`,
starting from `used0`. -/
def usedFoldFrom (used0 : List Bool) (peaks : List ℕ) : List Bool :=
  peaks.foldl markUsed used0

/-- The `used` array after recording `peaks` starting from all-false,
as `findPeaks` does. -/
def usedFor (powers : List ℚ) (peaks : List ℕ) : List Bool :=
  usedFoldFrom (List.replicate powers.length false) peaks

/-- `peak_power` of `audio_callback`: sum of power at bins
`idx-1 .. idx+1`, skipping indices outside the array (for `idx = 0` the
left neighbour is skipped, exactly as the C bound `n >= 0` does). -/
def peakPower (powers : List ℚ) (idx : ℕ) : ℚ :=
  (if idx = 0 then 0 else powers.getD (idx - 1) 0) + powers.getD idx 0 +
    powers.getD (idx + 1) 0

/-- The qualification test of `audio_callback`:
`purity > DETECT_THRESHOLD && freq >= bandpass_low_hz && freq <= bandpass_high_hz`. -/
def qualifies (low high : ℚ) (powers : List ℚ) (total : ℚ) (idx : ℕ) : Bool :=
  decide (peakPower powers idx / total > DETECT_THRESHOLD ∧
    low ≤ (idx : ℚ) * freq_resolution ∧ (idx : ℚ) * freq_resolution ≤ high)

/-- One iteration of the qualification-and-assignment loop of
`audio_callback` (`if (idx == -1 || total_power == 0.0) continue;` then
the purity and band test guarding `update_track`). -/
def peakStep (low high : ℚ) (powers : List ℚ) (total : ℚ) (now : ℕ)
    (ts : List SineTrack) (idx : ℕ) : List SineTrack :=
  if total = 0 then ts
  else if qualifies low high powers total idx then
    update_track ts ((idx : ℚ) * freq_resolution) (peakPower powers idx / total) now
  else ts

/-- The per-peak qualification-and-assignment loop of `audio_callback`. -/
def processPeaks (low high : ℚ) (powers : List ℚ) (total : ℚ) (now : ℕ)
    (tracks : List SineTrack) : List SineTrack :=
  (findPeaks powers).foldl (peakStep low high powers total now) tracks

/-- The (frequency, purity) pairs that actually reach `update_track` in a
frame: derived from `processPeaks` for stating which peaks qualify. -/
def qualifiedPeaks (low high : ℚ) (powers : List ℚ) (total : ℚ) : List (ℚ × ℚ) :=
  if total = 0 then []
  else
    (findPeaks powers).filterMap fun idx =>
      if qualifies low high powers total idx then
        some ((idx : ℚ) * freq_resolution, peakPower powers idx / total)
      else none

/-- The Morse-decoder part of the shared state: `estimated_dot_ms`,
`morse_buffer` and `morse_length` of src/main.c. -/
structure MorseState where
  estimated_dot_ms : ℚ
  morse_buffer : List Char
  morse_length : ℕ
deriving DecidableEq

/-- Symbol classification of `audio_callback`:
`tone_duration < estimated_dot_ms * 2.0` yields a dot, otherwise a dash. -/
def classifySymbol (duration dot : ℚ) : Char :=
  if duration < dot * 2 then '.' else '-'

/-- The `estimated_dot_ms` exponential-moving-average update of
`audio_callback` (`DOT_EST_ALPHA = 0.2`; a dash counts as three units). -/
def updatedDot (duration dot : ℚ) : ℚ :=
  if duration < dot * 2 then (1 - DOT_EST_ALPHA) * dot + DOT_EST_ALPHA * duration
  else (1 - DOT_EST_ALPHA) * dot + DOT_EST_ALPHA * (duration / 3)

/-- The bounded append of `audio_callback`:
`if (morse_length < MORSE_BUFFER_SIZE - 1) { morse_buffer[morse_length++] = symbol;
morse_buffer[morse_length] = '\0'; }` — a full buffer drops the new symbol. -/
def appendSymbol (buf : List Char) (len : ℕ) (c : Char) : List Char × ℕ :=
  if len < MORSE_BUFFER_SIZE - 1 then
    ((buf.set len c).set (len + 1) (Char.ofNat 0), len + 1)
  else (buf, len)

/-- One slot of the track state machine at the end of `audio_callback`:
activation of a claimed inactive slot after the persistence window, and
deactivation (with symbol decode) of an active slot unmatched for the
persistence window. -/
def stepTrack (persistence now : ℕ) (t : SineTrack) (m : MorseState) :
    SineTrack × MorseState :=
  if t.start_time ≠ 0 ∧ t.active = false then
    if persistence ≤ now - t.start_time then
      ({ t with active := true, last_seen := now, tone_start := now }, m)
    else (t, m)
  else if t.active = true then
    if persistence ≤ now - t.last_seen then
      let duration : ℚ := ((t.last_seen - t.tone_start : ℕ) : ℚ)
      let symbol := classifySymbol duration m.estimated_dot_ms
      let dotNew := updatedDot duration m.estimated_dot_ms
      let appended := appendSymbol m.morse_buffer m.morse_length symbol
      ({ t with active := false, start_time := 0, tone_start := 0 },
       { estimated_dot_ms := dotNew, morse_buffer := appended.1, morse_length := appended.2 })
    else (t, m)
  else (t, m)

/-- The `update track states` loop of `audio_callback`, threading the
decoder state through the slots in order. -/
def stepTracks (persistence now : ℕ) :
    List SineTrack → MorseState → List SineTrack × MorseState
  | [], m => ([], m)
  | t :: ts, m =>
    let first := stepTrack persistence now t m
    let rest := stepTracks persistence now ts first.2
    (first.1 :: rest.1, rest.2)

/-- Frequency-domain band-pass mask of `audio_callback`: zero the power of
a bin whose centre frequency lies outside `[low, high]`. -/
def maskedPower (low high : ℚ) (i : ℕ) (power : ℚ) : ℚ :=
  if (i : ℚ) * freq_resolution < low ∨ high < (i : ℚ) * freq_resolution then 0 else power

/-- The band-pass/averaging loop of `audio_callback`, walking the raw
power list with its bin index and the previous `avg_powers` in step.  The
result is simultaneously the new `powers` and the new `avg_powers`
(identical in both branches of the C code). -/
def filterFrom (averaging : Bool) (low high : ℚ) : ℕ → List ℚ → List ℚ → List ℚ
  | _, [], _ => []
  | i, r :: rs, avs =>
    (let power := maskedPower low high i r
     if averaging then AVERAGING_ALPHA * power + (1 - AVERAGING_ALPHA) * avs.getD 0 0
     else power) ::
      filterFrom averaging low high (i + 1) rs avs.tail

/-- The squelch/normalisation step of `audio_callback` for one bin:
returns the (detection power, normalised magnitude) pair after clamping
`norm` to 1 and gating both when squelch is enabled and `norm` is
strictly below the threshold. -/
def squelchBin (squelch : Bool) (threshold power : ℚ) : ℚ × ℚ :=
  let norm0 := power / max_possible_power
  let norm := if norm0 > 1 then 1 else norm0
  if squelch ∧ norm < threshold then (0, 0) else (power, norm)

/-- The user-adjustable parameters read by `audio_callback`. -/
structure Config where
  bandpass_low_hz : ℚ
  bandpass_high_hz : ℚ
  persistence_threshold_ms : ℕ
  averaging_enabled : Bool
  squelch_enabled : Bool
  squelch_threshold : ℚ
deriving DecidableEq

/-- The mutable state of the core shared across frames. -/
structure DetState where
  tracks : List SineTrack
  avg_powers : List ℚ
  magnitudes : List ℚ
  morse : MorseState
deriving DecidableEq

/-- Band-passed / averaged per-bin power of one frame (`powers` after the
first loop of `audio_callback`). -/
def framePowers (cfg : Config) (raw : List ℚ) (s : DetState) : List ℚ :=
  filterFrom cfg.averaging_enabled cfg.bandpass_low_hz cfg.bandpass_high_hz 0 raw s.avg_powers

/-- Post-squelch detection powers of one frame. -/
def frameDetPowers (cfg : Config) (raw : List ℚ) (s : DetState) : List ℚ :=
  (framePowers cfg raw s).map fun p => (squelchBin cfg.squelch_enabled cfg.squelch_threshold p).1

/-- Post-squelch normalised magnitudes of one frame. -/
def frameMagnitudes (cfg : Config) (raw : List ℚ) (s : DetState) : List ℚ :=
  (framePowers cfg raw s).map fun p => (squelchBin cfg.squelch_enabled cfg.squelch_threshold p).2

/-- `total_power` of one frame (sum of post-squelch detection powers). -/
def frameTotalPower (cfg : Config) (raw : List ℚ) (s : DetState) : ℚ :=
  (frameDetPowers cfg raw s).sum

/-- One full invocation of the detection core of `audio_callback`, from
per-bin raw FFT powers (`re² + im²` per bin) to the updated shared state.
The windowing/FFT front end is the external numerical collaborator and is
not part of the core (§4.2 of the spec). -/
def processFrame (cfg : Config) (raw : List ℚ) (now : ℕ) (s : DetState) : DetState :=
  let powers := framePowers cfg raw s
  let detPowers := frameDetPowers cfg raw s
  let total := frameTotalPower cfg raw s
  let tracks1 := processPeaks cfg.bandpass_low_hz cfg.bandpass_high_hz detPowers total now s.tracks
  let stepped := stepTracks cfg.persistence_threshold_ms now tracks1 s.morse
  { tracks := stepped.1, avg_powers := powers,
    magnitudes := frameMagnitudes cfg raw s, morse := stepped.2 }

/-- The zero-initialised globals at process start. -/
def initState : DetState :=
  { tracks := List.replicate MAX_TRACKED_SINES emptyTrack,
    avg_powers := List.replicate halfSize 0,
    magnitudes := List.replicate halfSize 0,
    morse := { estimated_dot_ms := 120,
               morse_buffer := List.replicate MORSE_BUFFER_SIZE (Char.ofNat 0),
               morse_length := 0 } }

/-- A whole run: frames `(raw, now)` processed in order under a fixed
configuration. -/
def processFrames (cfg : Config) (frames : List (List ℚ × ℕ)) (s : DetState) : DetState :=
  frames.foldl (fun st fr => processFrame cfg fr.1 fr.2 st) s

/-- A strict-left / ge-right local maximum, the shape tested by the inner
peak scan. -/
def localMaxAt (powers : List ℚ) (i : ℕ) : Prop :=
  powers.getD (i - 1) 0 < powers.getD i 0 ∧ powers.getD (i + 1) 0 ≤ powers.getD i 0

/-- A bin the inner scan may select: in `1 .. length - 2`, unused, of
positive power, and a local maximum. -/
def isCandidate (powers : List ℚ) (used : List Bool) (i : ℕ) : Prop :=
  1 ≤ i ∧ i + 1 < powers.length ∧ used.getD i false = false ∧
    0 < powers.getD i 0 ∧ localMaxAt powers i

/-- Spec §4.5 slot state: empty (no pending or active hypothesis). -/
def isEmptySlot (t : SineTrack) : Prop :=
  t.start_time = 0 ∧ t.active = false

/-- Spec §4.5 slot state: pending (`pending_since` ≠ 0, not active). -/
def isPendingSlot (t : SineTrack) : Prop :=
  t.start_time ≠ 0 ∧ t.active = false

/-- Spec §4.5 slot state: active (`active` with a recorded tone start). -/
def isActiveSlot (t : SineTrack) : Prop :=
  t.active = true ∧ t.tone_start ≠ 0

/-- The three-state invariant of the spec's data model. -/
def trackInv (t : SineTrack) : Prop :=
  isEmptySlot t ∨ isPendingSlot t ∨ isActiveSlot t

/-- Track-slot invariant used for band-pass masking: an active slot was
claimed, and a claimed slot's smoothed frequency lies in the pass band. -/
def inBandInv (low high : ℚ) (t : SineTrack) : Prop :=
  (t.active = true → t.start_time ≠ 0) ∧
    (t.start_time ≠ 0 → low ≤ t.freq ∧ t.freq ≤ high)

/-- Well-formedness of the Morse buffer: fixed 256-byte storage, length
strictly inside it, and a NUL terminator at `morse_length`. -/
def bufInv (m : MorseState) : Prop :=
  m.morse_buffer.length = MORSE_BUFFER_SIZE ∧ m.morse_length < MORSE_BUFFER_SIZE ∧
    m.morse_buffer.getD m.morse_length 'A' = Char.ofNat 0

/-- `m'` extends `m`: the symbol count never shrinks and already-written
symbols are never modified. -/
def morseExtends (m m' : MorseState) : Prop :=
  m.morse_length ≤ m'.morse_length ∧
    ∀ i < m.morse_length, m'.morse_buffer.getD i 'A' = m.morse_buffer.getD i 'A'

/-- Iterated `estimated_dot_ms` update for a run of completed tones of one
fixed duration `d`. -/
def dotIter (d dot : ℚ) : ℕ → ℚ
  | 0 => dot
  | n + 1 => updatedDot d (dotIter d dot n)

/-- Default configuration of src/main.c (band 20–20000 Hz, persistence
200 ms, averaging off, squelch off at threshold 0.02). -/
def cfgDefault : Config :=
  { bandpass_low_hz := 20, bandpass_high_hz := 20000, persistence_threshold_ms := 200,
    averaging_enabled := false, squelch_enabled := false, squelch_threshold := 1/50 }

/-- Default configuration with squelch enabled at threshold 1.0. -/
def cfgSquelchOne : Config :=
  { cfgDefault with squelch_enabled := true, squelch_threshold := 1 }

/-- A small concrete frame: one tone concentrated in bin 2
(≈ 43.07 Hz, inside the default band). -/
def toneRaw : List ℚ := [0, 0, 100, 0]

/-- A small concrete all-zero frame. -/
def silenceRaw : List ℚ := [0, 0, 0, 0]

/-- A frame whose bin 2 is at the theoretical full-scale power
`max_possible_power = 262144`, so its clamped normalised magnitude is
exactly 1. -/
def fullScaleRaw : List ℚ := [0, 0, 262144, 0]

/-- Run invariant for band-pass masking: all tracks satisfy `inBandInv`
and the smoothed out-of-band spectrum is identically zero. -/
def frameStateInv (low high : ℚ) (s : DetState) : Prop :=
  (∀ t ∈ s.tracks, inBandInv low high t) ∧
  (∀ i : ℕ, ((i : ℚ) * freq_resolution < low ∨ high < (i : ℚ) * freq_resolution) →
    s.avg_powers.getD i 0 = 0)

/-! ### List helper lemmas -/

theorem getD_set_same {α : Type} (l : List α) (i : ℕ) (a d : α) (h : i < l.length) :
    (l.set i a).getD i d = a := by
  rw [List.getD_eq_getElem?_getD, List.getElem?_set_self h]
  rfl

theorem getD_set_diff {α : Type} (l : List α) (i j : ℕ) (a d : α) (h : i ≠ j) :
    (l.set i a).getD j d = l.getD j d := by
  rw [List.getD_eq_getElem?_getD, List.getElem?_set_ne h, ← List.getD_eq_getElem?_getD]

theorem findFirstIdx_some {α : Type} [Inhabited α] (p : α → Bool) :
    ∀ (l : List α) (i : ℕ), findFirstIdx p l = some i →
      i < l.length ∧ p (l.getD i default) = true ∧ ∀ j < i, p (l.getD j default) = false := by
  intro l
  induction l with
  | nil => intro i h; simp [findFirstIdx] at h
  | cons a as ih =>
    intro i h
    by_cases hp : p a
    · simp [findFirstIdx, hp] at h
      subst h
      exact ⟨Nat.succ_pos _, by simpa using hp, fun j hj => absurd hj (Nat.not_lt_zero j)⟩
    · simp [findFirstIdx, hp] at h
      obtain ⟨i0, hi0, rfl⟩ := h
      obtain ⟨hlen, hpi, hprev⟩ := ih i0 hi0
      refine ⟨by simpa using Nat.succ_lt_succ hlen, by simpa using hpi, ?_⟩
      intro j hj
      match j with
      | 0 => simpa using hp
      | j + 1 =>
        have : j < i0 := Nat.lt_of_succ_lt_succ hj
        simpa using hprev j this

theorem findFirstIdx_none {α : Type} [Inhabited α] (p : α → Bool) :
    ∀ (l : List α), findFirstIdx p l = none →
      ∀ j < l.length, p (l.getD j default) = false := by
  intro l
  induction l with
  | nil => intro _ j hj; simp at hj
  | cons a as ih =>
    intro h j hj
    by_cases hp : p a
    · simp [findFirstIdx, hp] at h
    · simp [findFirstIdx, hp] at h
      match j with
      | 0 => simpa using hp
      | j + 1 =>
        have : j < as.length := by simpa using Nat.lt_of_succ_lt_succ hj
        simpa using ih h j this

theorem update_track_matched (tracks : List SineTrack) (f pu : ℚ) (now i : ℕ)
    (h : findFirstIdx (trackMatches f) tracks = some i) :
    update_track tracks f pu now =
      tracks.set i (smoothedUpdate (tracks.getD i default) f pu now) := by
  unfold update_track
  rw [h]

theorem update_track_claimed (tracks : List SineTrack) (f pu : ℚ) (now j : ℕ)
    (h : findFirstIdx (trackMatches f) tracks = none)
    (h2 : findFirstIdx (fun t => t.start_time == 0) tracks = some j) :
    update_track tracks f pu now = tracks.set j (freshTrack f pu now) := by
  unfold update_track
  rw [h, h2]

theorem update_track_full (tracks : List SineTrack) (f pu : ℚ) (now : ℕ)
    (h : findFirstIdx (trackMatches f) tracks = none)
    (h2 : findFirstIdx (fun t => t.start_time == 0) tracks = none) :
    update_track tracks f pu now = tracks := by
  unfold update_track
  rw [h, h2]

theorem update_track_preserve (P : SineTrack → Prop)
    (tracks : List SineTrack) (f pu : ℚ) (now : ℕ)
    (hsm : ∀ t, P t → trackMatches f t = true → P (smoothedUpdate t f pu now))
    (hfr : P (freshTrack f pu now)) :
    (∀ t ∈ tracks, P t) → ∀ t ∈ update_track tracks f pu now, P t := by
  intro hall t ht
  unfold update_track at ht
  cases hm : findFirstIdx (trackMatches f) tracks with
  | some i =>
    rw [hm] at ht
    rcases List.mem_or_eq_of_mem_set ht with h | h
    · exact hall t h
    · subst h
      obtain ⟨hlen, hpi, _⟩ := findFirstIdx_some _ tracks i hm
      refine hsm _ (hall _ ?_) hpi
      have := List.getD_eq_getElem tracks default hlen
      rw [this]
      exact List.getElem_mem hlen
  | none =>
    rw [hm] at ht
    cases he : findFirstIdx (fun t => t.start_time == 0) tracks with
    | some j =>
      rw [he] at ht
      rcases List.mem_or_eq_of_mem_set ht with h | h
      · exact hall t h
      · subst h; exact hfr
    | none =>
      rw [he] at ht
      exact hall t ht

/-! ### Correctness of the inner peak scan -/

theorem bestAux_spec (powers : List ℚ) (used : List Bool) :
    ∀ (idxs : List ℕ) (best : Option ℕ) (bp : ℚ),
      (best = none → bp = 0) →
      (∀ b, best = some b → bp = powers.getD b 0 ∧ 0 < bp ∧ used.getD b false = false ∧
        localMaxAt powers b ∧ 1 ≤ b ∧ b + 1 < powers.length) →
      (∀ j ∈ idxs, 1 ≤ j ∧ j + 1 < powers.length) →
      ((bestAux powers used idxs best bp).1 = none →
        (bestAux powers used idxs best bp).2 = 0) ∧
      (∀ b, (bestAux powers used idxs best bp).1 = some b →
        (bestAux powers used idxs best bp).2 = powers.getD b 0 ∧
        0 < powers.getD b 0 ∧ used.getD b false = false ∧
        localMaxAt powers b ∧ 1 ≤ b ∧ b + 1 < powers.length) ∧
      bp ≤ (bestAux powers used idxs best bp).2 ∧
      (∀ j ∈ idxs, used.getD j false = false → localMaxAt powers j →
        powers.getD j 0 ≤ (bestAux powers used idxs best bp).2) ∧
      ((bestAux powers used idxs best bp).1 = none → best = none ∧
        ∀ j ∈ idxs,
          ¬(used.getD j false = false ∧ 0 < powers.getD j 0 ∧ localMaxAt powers j)) := by
  intro idxs
  induction idxs with
  | nil =>
    intro best bp h1 h2 _
    refine ⟨h1, ?_, le_refl _, ?_, ?_⟩
    · intro b hb
      obtain ⟨heq, hpos, hrest⟩ := h2 b hb
      exact ⟨heq, heq ▸ hpos, hrest⟩
    · intro j hj; simp at hj
    · intro hn; exact ⟨hn, by intro j hj; simp at hj⟩
  | cons i rest ih =>
    intro best bp h1 h2 h3
    have hbp0 : 0 ≤ bp := by
      cases best with
      | none => exact le_of_eq (h1 rfl).symm
      | some b => exact le_of_lt (h2 b rfl).2.1
    by_cases hu : used.getD i false = true
    · have hstep : bestAux powers used (i :: rest) best bp =
          bestAux powers used rest best bp := by
        simp only [bestAux]
        rw [if_pos hu]
      rw [hstep]
      obtain ⟨c1, c2, c3, c4, c5⟩ :=
        ih best bp h1 h2 (fun j hj => h3 j (List.mem_cons_of_mem _ hj))
      refine ⟨c1, c2, c3, ?_, ?_⟩
      · intro j hj hju hjl
        rcases List.mem_cons.mp hj with rfl | hj
        · rw [hju] at hu; exact absurd hu (by simp)
        · exact c4 j hj hju hjl
      · intro hn
        obtain ⟨hb, hrest⟩ := c5 hn
        refine ⟨hb, ?_⟩
        intro j hj
        rcases List.mem_cons.mp hj with rfl | hj
        · intro hx; rw [hx.1] at hu; exact absurd hu (by simp)
        · exact hrest j hj
    · have hu' : used.getD i false = false := by
        cases h : used.getD i false with
        | false => rfl
        | true => exact absurd h hu
      by_cases hc : powers.getD i 0 > bp ∧ powers.getD (i - 1) 0 < powers.getD i 0 ∧
          powers.getD (i + 1) 0 ≤ powers.getD i 0
      · have hstep : bestAux powers used (i :: rest) best bp =
            bestAux powers used rest (some i) (powers.getD i 0) := by
          simp only [bestAux]
          rw [if_neg (by rw [hu']; simp), if_pos hc]
        rw [hstep]
        have hipos : 0 < powers.getD i 0 := lt_of_le_of_lt hbp0 hc.1
        have h2' : ∀ b, (some i : Option ℕ) = some b →
            powers.getD i 0 = powers.getD b 0 ∧ 0 < powers.getD i 0 ∧
            used.getD b false = false ∧ localMaxAt powers b ∧ 1 ≤ b ∧
            b + 1 < powers.length := by
          intro b hb
          cases hb
          exact ⟨rfl, hipos, hu', ⟨hc.2.1, hc.2.2⟩, (h3 i (List.mem_cons_self i rest)).1,
            (h3 i (List.mem_cons_self i rest)).2⟩
        obtain ⟨c1, c2, c3, c4, c5⟩ := ih (some i) (powers.getD i 0)
          (fun h => by cases h) h2' (fun j hj => h3 j (List.mem_cons_of_mem _ hj))
        refine ⟨c1, c2, le_trans (le_of_lt hc.1) c3, ?_, ?_⟩
        · intro j hj hju hjl
          rcases List.mem_cons.mp hj with rfl | hj
          · exact c3
          · exact c4 j hj hju hjl
        · intro hn
          exact absurd (c5 hn).1 (by simp)
      · have hstep : bestAux powers used (i :: rest) best bp =
            bestAux powers used rest best bp := by
          simp only [bestAux]
          rw [if_neg (by rw [hu']; simp), if_neg hc]
        rw [hstep]
        obtain ⟨c1, c2, c3, c4, c5⟩ :=
          ih best bp h1 h2 (fun j hj => h3 j (List.mem_cons_of_mem _ hj))
        refine ⟨c1, c2, c3, ?_, ?_⟩
        · intro j hj hju hjl
          rcases List.mem_cons.mp hj with rfl | hj
          · have hle : ¬ powers.getD j 0 > bp := fun hgt => hc ⟨hgt, hjl.1, hjl.2⟩
            exact le_trans (not_lt.mp hle) c3
          · exact c4 j hj hju hjl
        · intro hn
          obtain ⟨hb, hrest⟩ := c5 hn
          refine ⟨hb, ?_⟩
          intro j hj
          rcases List.mem_cons.mp hj with rfl | hj
          · rintro ⟨hju, hjpos, hjl⟩
            have hbz : bp = 0 := h1 hb
            exact hc ⟨by rw [hbz]; exact hjpos, hjl.1, hjl.2⟩
          · exact hrest j hj

theorem isCandidate_mem_range (powers : List ℚ) (used : List Bool) (j : ℕ)
    (h : isCandidate powers used j) : j ∈ List.range' 1 (powers.length - 2) := by
  rw [List.mem_range'_1]
  obtain ⟨h1, h2, _⟩ := h
  omega

theorem bestBin_some_spec (powers : List ℚ) (used : List Bool) (b : ℕ)
    (h : bestBin powers used = some b) :
    isCandidate powers used b ∧
      ∀ j, isCandidate powers used j → powers.getD j 0 ≤ powers.getD b 0 := by
  obtain ⟨_, c2, _, c4, _⟩ := bestAux_spec powers used (List.range' 1 (powers.length - 2))
    none 0 (fun _ => rfl) (fun b hb => by cases hb)
    (fun j hj => by rw [List.mem_range'_1] at hj; omega)
  obtain ⟨heq, hpos, hun, hlm, hlo, hhi⟩ := c2 b h
  refine ⟨⟨hlo, hhi, hun, hpos, hlm⟩, ?_⟩
  intro j hj
  have := c4 j (isCandidate_mem_range powers used j hj) hj.2.2.1 hj.2.2.2.2
  rw [heq] at this
  exact this

theorem bestBin_none_spec (powers : List ℚ) (used : List Bool)
    (h : bestBin powers used = none) :
    ∀ j, ¬ isCandidate powers used j := by
  obtain ⟨_, _, _, _, c5⟩ := bestAux_spec powers used (List.range' 1 (powers.length - 2))
    none 0 (fun _ => rfl) (fun b hb => by cases hb)
    (fun j hj => by rw [List.mem_range'_1] at hj; omega)
  intro j hj
  exact (c5 h).2 j (isCandidate_mem_range powers used j hj)
    ⟨hj.2.2.1, hj.2.2.2.1, hj.2.2.2.2⟩

/-! ### Round structure of the outer peak loop -/

theorem findPeaksAux_length (powers : List ℚ) :
    ∀ (k : ℕ) (used : List Bool), (findPeaksAux powers k used).length ≤ k := by
  intro k
  induction k with
  | zero => intro used; simp [findPeaksAux]
  | succ k ih =>
    intro used
    cases hb : bestBin powers used with
    | none => simp [findPeaksAux, hb]
    | some b =>
      simp only [findPeaksAux, hb, List.length_cons]
      exact Nat.succ_le_succ (ih _)

theorem findPeaksAux_round (powers : List ℚ) :
    ∀ (k : ℕ) (used : List Bool) (i : ℕ), i < (findPeaksAux powers k used).length →
      bestBin powers (usedFoldFrom used ((findPeaksAux powers k used).take i)) =
        some ((findPeaksAux powers k used).getD i 0) := by
  intro k
  induction k with
  | zero => intro used i h; simp [findPeaksAux] at h
  | succ k ih =>
    intro used i h
    cases hb : bestBin powers used with
    | none => rw [findPeaksAux, hb] at h ⊢; simp at h
    | some b =>
      rw [findPeaksAux, hb] at h ⊢
      match i with
      | 0 => simpa [usedFoldFrom] using hb
      | i + 1 =>
        have hi : i < (findPeaksAux powers k (markUsed used b)).length := by
          simpa using Nat.lt_of_succ_lt_succ h
        have := ih (markUsed used b) i hi
        simpa [usedFoldFrom] using this

theorem findPeaksAux_stop (powers : List ℚ) :
    ∀ (k : ℕ) (used : List Bool), (findPeaksAux powers k used).length < k →
      bestBin powers (usedFoldFrom used (findPeaksAux powers k used)) = none := by
  intro k
  induction k with
  | zero => intro used h; simp at h
  | succ k ih =>
    intro used h
    cases hb : bestBin powers used with
    | none => rw [findPeaksAux, hb]; simpa [usedFoldFrom] using hb
    | some b =>
      rw [findPeaksAux, hb] at h ⊢
      have : (findPeaksAux powers k (markUsed used b)).length < k := by
        simpa using Nat.lt_of_succ_lt_succ h
      simpa [usedFoldFrom] using ih (markUsed used b) this

/-! ### Suppression marking semantics -/

theorem markFrom_length (best : ℕ) :
    ∀ (k : ℕ) (us : List Bool), (markFrom best k us).length = us.length := by
  intro k us
  induction us generalizing k with
  | nil => rfl
  | cons u us ih => simp [markFrom, ih]

theorem markFrom_getD (best : ℕ) :
    ∀ (us : List Bool) (k j : ℕ), j < us.length →
      (markFrom best k us).getD j false =
        (if best ≤ k + j + PEAK_SUPPRESS_BINS ∧ k + j ≤ best + PEAK_SUPPRESS_BINS then true
         else us.getD j false) := by
  intro us
  induction us with
  | nil => intro k j hj; simp at hj
  | cons u rest ih =>
    intro k j hj
    match j with
    | 0 => simp [markFrom]
    | j + 1 =>
      have hj' : j < rest.length := by simpa using Nat.lt_of_succ_lt_succ hj
      have := ih (k + 1) j hj'
      have harith : k + 1 + j = k + (j + 1) := by omega
      rw [harith] at this
      simpa [markFrom] using this

theorem markUsed_getD (used : List Bool) (best j : ℕ) (hj : j < used.length) :
    (markUsed used best).getD j false =
      (if best ≤ j + PEAK_SUPPRESS_BINS ∧ j ≤ best + PEAK_SUPPRESS_BINS then true
       else used.getD j false) := by
  have := markFrom_getD best used 0 j hj
  simpa [markUsed] using this

/-! ### The qualification loop as a fold over the qualifying peaks -/

theorem peakStep_total_zero (low high : ℚ) (powers : List ℚ) (total : ℚ) (now : ℕ)
    (ts : List SineTrack) (idx : ℕ) (ht : total = 0) :
    peakStep low high powers total now ts idx = ts := by
  unfold peakStep
  rw [if_pos ht]

theorem foldl_peaks_total_zero (low high : ℚ) (powers : List ℚ) (total : ℚ) (now : ℕ)
    (ht : total = 0) :
    ∀ (l : List ℕ) (ts : List SineTrack),
      l.foldl (peakStep low high powers total now) ts = ts := by
  intro l
  induction l with
  | nil => intro ts; rfl
  | cons i rest ih =>
    intro ts
    rw [List.foldl_cons, peakStep_total_zero low high powers total now ts i ht]
    exact ih ts

theorem foldl_peaks_filterMap (low high : ℚ) (powers : List ℚ) (total : ℚ) (now : ℕ)
    (ht : ¬ total = 0) :
    ∀ (l : List ℕ) (ts : List SineTrack),
      l.foldl (peakStep low high powers total now) ts =
      (l.filterMap fun idx =>
        if qualifies low high powers total idx then
          some ((idx : ℚ) * freq_resolution, peakPower powers idx / total)
        else none).foldl (fun ts fp => update_track ts fp.1 fp.2 now) ts := by
  intro l
  induction l with
  | nil => intro ts; rfl
  | cons i rest ih =>
    intro ts
    rw [List.foldl_cons]
    cases hq : qualifies low high powers total i with
    | true =>
      have hstep : peakStep low high powers total now ts i =
          update_track ts ((i : ℚ) * freq_resolution) (peakPower powers i / total) now := by
        unfold peakStep
        rw [if_neg ht, if_pos hq]
      rw [hstep, List.filterMap_cons_some (b := ((i : ℚ) * freq_resolution, peakPower powers i / total)) (by simp [hq]), List.foldl_cons]
      exact ih _
    | false =>
      have hstep : peakStep low high powers total now ts i = ts := by
        unfold peakStep
        rw [if_neg ht, if_neg (by rw [hq]; exact Bool.false_ne_true)]
      rw [hstep, List.filterMap_cons_none (by simp [hq])]
      exact ih ts

theorem processPeaks_eq_qualified (low high : ℚ) (powers : List ℚ) (total : ℚ) (now : ℕ)
    (tracks : List SineTrack) :
    processPeaks low high powers total now tracks =
      (qualifiedPeaks low high powers total).foldl
        (fun ts fp => update_track ts fp.1 fp.2 now) tracks := by
  unfold processPeaks qualifiedPeaks
  by_cases ht : total = 0
  · rw [foldl_peaks_total_zero low high powers total now ht, if_pos ht]
    rfl
  · rw [if_neg ht, foldl_peaks_filterMap low high powers total now ht]

theorem qualifiedPeaks_mem (low high : ℚ) (powers : List ℚ) (total : ℚ) (fp : ℚ × ℚ)
    (h : fp ∈ qualifiedPeaks low high powers total) :
    total ≠ 0 ∧ DETECT_THRESHOLD < fp.2 ∧ low ≤ fp.1 ∧ fp.1 ≤ high ∧
      ∃ idx ∈ findPeaks powers,
        fp = ((idx : ℚ) * freq_resolution, peakPower powers idx / total) := by
  unfold qualifiedPeaks at h
  by_cases ht : total = 0
  · rw [if_pos ht] at h; simp at h
  · rw [if_neg ht, List.mem_filterMap] at h
    obtain ⟨idx, hidx, heq⟩ := h
    cases hq : qualifies low high powers total idx with
    | false => rw [hq] at heq; simp at heq
    | true =>
      rw [hq] at heq
      simp only [if_true] at heq
      cases heq
      have hprop := of_decide_eq_true hq
      exact ⟨ht, hprop.1, hprop.2.1, hprop.2.2, idx, hidx, rfl⟩

theorem qualified_foldl_preserve (P : SineTrack → Prop) (now : ℕ) :
    ∀ (l : List (ℚ × ℚ)),
      (∀ (ts : List SineTrack) (fp : ℚ × ℚ), fp ∈ l → (∀ t ∈ ts, P t) →
        ∀ t ∈ update_track ts fp.1 fp.2 now, P t) →
      ∀ (ts : List SineTrack), (∀ t ∈ ts, P t) →
        ∀ t ∈ l.foldl (fun ts fp => update_track ts fp.1 fp.2 now) ts, P t := by
  intro l
  induction l with
  | nil => intro _ ts hts t ht; exact hts t ht
  | cons fp rest ih =>
    intro hstep ts hts t ht
    simp only [List.foldl_cons] at ht
    exact ih (fun ts fp hfp => hstep ts fp (List.mem_cons_of_mem _ hfp)) _
      (hstep ts fp (List.mem_cons_self fp rest) hts) t ht

/-! ### Filter-stage lemmas -/

theorem getD_nonneg (l : List ℚ) (j : ℕ) (h : ∀ x ∈ l, 0 ≤ x) : 0 ≤ l.getD j 0 := by
  rw [List.getD_eq_getElem?_getD]
  cases hj : l[j]? with
  | none => simp
  | some x =>
    have : x ∈ l := List.getElem?_mem hj
    simpa using h x this

theorem maskedPower_nonneg (low high : ℚ) (i : ℕ) (p : ℚ) (hp : 0 ≤ p) :
    0 ≤ maskedPower low high i p := by
  unfold maskedPower
  split
  · exact le_refl 0
  · exact hp

theorem filterFrom_length (a : Bool) (low high : ℚ) :
    ∀ (raw : List ℚ) (i : ℕ) (avs : List ℚ),
      (filterFrom a low high i raw avs).length = raw.length := by
  intro raw
  induction raw with
  | nil => intro i avs; rfl
  | cons r rs ih => intro i avs; simp [filterFrom, ih]

theorem filterFrom_getD (a : Bool) (low high : ℚ) :
    ∀ (raw : List ℚ) (i j : ℕ) (avs : List ℚ), j < raw.length →
      (filterFrom a low high i raw avs).getD j 0 =
        (if a then AVERAGING_ALPHA * maskedPower low high (i + j) (raw.getD j 0) +
            (1 - AVERAGING_ALPHA) * avs.getD j 0
         else maskedPower low high (i + j) (raw.getD j 0)) := by
  intro raw
  induction raw with
  | nil => intro i j avs hj; simp at hj
  | cons r rs ih =>
    intro i j avs hj
    match j with
    | 0 => simp [filterFrom]
    | j + 1 =>
      have hj' : j < rs.length := by simpa using Nat.lt_of_succ_lt_succ hj
      have := ih (i + 1) j avs.tail hj'
      have harith : i + 1 + j = i + (j + 1) := by omega
      rw [harith] at this
      have htail : avs.tail.getD j 0 = avs.getD (j + 1) 0 := by
        cases avs with
        | nil => simp
        | cons a as => simp
      rw [htail] at this
      simpa [filterFrom] using this

theorem filterFrom_nonneg (a : Bool) (low high : ℚ) :
    ∀ (raw : List ℚ) (i : ℕ) (avs : List ℚ), (∀ x ∈ raw, 0 ≤ x) →
      (∀ x ∈ avs, 0 ≤ x) → ∀ x ∈ filterFrom a low high i raw avs, 0 ≤ x := by
  intro raw
  induction raw with
  | nil => intro i avs _ _ x hx; simp [filterFrom] at hx
  | cons r rs ih =>
    intro i avs hraw havs x hx
    rw [filterFrom, List.mem_cons] at hx
    rcases hx with rfl | hx
    · have hm : 0 ≤ maskedPower low high i r :=
        maskedPower_nonneg low high i r (hraw r (List.mem_cons_self r rs))
      cases a with
      | false => simpa using hm
      | true =>
        have hav : 0 ≤ avs.getD 0 0 := getD_nonneg avs 0 havs
        simp only [if_true]
        have h1 : 0 ≤ AVERAGING_ALPHA * maskedPower low high i r := by
          unfold AVERAGING_ALPHA; positivity
        have h2 : 0 ≤ (1 - AVERAGING_ALPHA) * avs.getD 0 0 := by
          unfold AVERAGING_ALPHA
          nlinarith
        simpa using add_nonneg h1 h2
    · exact ih (i + 1) avs.tail (fun y hy => hraw y (List.mem_cons_of_mem r hy))
        (fun y hy => havs y (List.mem_of_mem_tail hy)) x hx

/-! ### Squelch lemmas -/

theorem squelchBin_off_eq_zero_threshold (th p : ℚ) (hp : 0 ≤ p) :
    squelchBin false th p = squelchBin true 0 p := by
  have hm : (0 : ℚ) < max_possible_power := by unfold max_possible_power FFT_SIZE; norm_num
  have hn0 : 0 ≤ p / max_possible_power := div_nonneg hp (le_of_lt hm)
  have hnorm : 0 ≤ (if p / max_possible_power > 1 then (1 : ℚ) else p / max_possible_power) := by
    split
    · norm_num
    · exact hn0
  have hN : ¬ ((if p / max_possible_power > 1 then (1 : ℚ) else p / max_possible_power) < 0) :=
    not_lt.mpr hnorm
  simp only [squelchBin]
  rw [if_neg (show ¬(false = true ∧
        (if p / max_possible_power > 1 then (1 : ℚ) else p / max_possible_power) < th) from
      fun h => Bool.false_ne_true h.1),
    if_neg (show ¬(True ∧
        (if p / max_possible_power > 1 then (1 : ℚ) else p / max_possible_power) < 0) from
      fun h => hN h.2)]

theorem squelchBin_one_below (p : ℚ) (hp : p < max_possible_power) :
    squelchBin true 1 p = (0, 0) := by
  have hm : (0 : ℚ) < max_possible_power := by unfold max_possible_power FFT_SIZE; norm_num
  have hlt : p / max_possible_power < 1 := (div_lt_one hm).mpr hp
  simp only [squelchBin, true_and]
  rw [if_pos (show (if p / max_possible_power > 1 then (1 : ℚ) else p / max_possible_power) < 1 from by
    split
    · next hgt => exact absurd hlt (not_lt.mpr (le_of_lt hgt))
    · exact hlt)]

/-! ### Symbol-buffer lemmas -/

theorem appendSymbol_full (buf : List Char) (c : Char) :
    appendSymbol buf (MORSE_BUFFER_SIZE - 1) c = (buf, MORSE_BUFFER_SIZE - 1) := by
  unfold appendSymbol
  rw [if_neg (Nat.lt_irrefl _)]

theorem appendSymbol_len_le (buf : List Char) (len : ℕ) (c : Char) :
    len ≤ (appendSymbol buf len c).2 := by
  unfold appendSymbol
  split
  · exact Nat.le_succ len
  · exact le_refl len

theorem appendSymbol_keeps_written (buf : List Char) (len : ℕ) (c : Char) (i : ℕ)
    (hi : i < len) :
    (appendSymbol buf len c).1.getD i 'A' = buf.getD i 'A' := by
  unfold appendSymbol
  split
  · rw [getD_set_diff _ _ _ _ _ (by omega), getD_set_diff _ _ _ _ _ (by omega)]
  · rfl

theorem appendSymbol_inv (buf : List Char) (len : ℕ) (c : Char)
    (hl : buf.length = MORSE_BUFFER_SIZE) (hlen : len < MORSE_BUFFER_SIZE)
    (hnul : buf.getD len 'A' = Char.ofNat 0) :
    (appendSymbol buf len c).1.length = MORSE_BUFFER_SIZE ∧
      (appendSymbol buf len c).2 < MORSE_BUFFER_SIZE ∧
      (appendSymbol buf len c).1.getD (appendSymbol buf len c).2 'A' = Char.ofNat 0 := by
  unfold appendSymbol
  split
  · next h =>
    refine ⟨by simp [hl], by unfold MORSE_BUFFER_SIZE at *; omega, ?_⟩
    have hlt : len + 1 < (buf.set len c).length := by
      rw [List.length_set, hl]
      unfold MORSE_BUFFER_SIZE at *
      omega
    exact getD_set_same _ _ _ _ hlt
  · exact ⟨hl, hlen, hnul⟩

/-! ### State-machine branch analysis -/

theorem stepTrack_cases (p now : ℕ) (t : SineTrack) (m : MorseState) :
    (stepTrack p now t m).1 = t ∨
    ((stepTrack p now t m).1 = { t with active := true, last_seen := now, tone_start := now } ∧
      t.start_time ≠ 0 ∧ t.active = false ∧ p ≤ now - t.start_time) ∨
    ((stepTrack p now t m).1 = { t with active := false, start_time := 0, tone_start := 0 } ∧
      t.active = true ∧ p ≤ now - t.last_seen) := by
  unfold stepTrack
  split
  · next h1 =>
    split
    · next h2 => exact Or.inr (Or.inl ⟨rfl, h1.1, h1.2, h2⟩)
    · exact Or.inl rfl
  · split
    · next h2 =>
      split
      · next h3 => exact Or.inr (Or.inr ⟨rfl, h2, h3⟩)
      · exact Or.inl rfl
    · exact Or.inl rfl

theorem stepTrack_morse_cases (p now : ℕ) (t : SineTrack) (m : MorseState) :
    (stepTrack p now t m).2 = m ∨
    ((stepTrack p now t m).2 =
      { estimated_dot_ms := updatedDot ((t.last_seen - t.tone_start : ℕ) : ℚ) m.estimated_dot_ms,
        morse_buffer := (appendSymbol m.morse_buffer m.morse_length
          (classifySymbol ((t.last_seen - t.tone_start : ℕ) : ℚ) m.estimated_dot_ms)).1,
        morse_length := (appendSymbol m.morse_buffer m.morse_length
          (classifySymbol ((t.last_seen - t.tone_start : ℕ) : ℚ) m.estimated_dot_ms)).2 } ∧
      t.active = true ∧ p ≤ now - t.last_seen) := by
  unfold stepTrack
  split
  · split
    · exact Or.inl rfl
    · exact Or.inl rfl
  · split
    · next h2 =>
      split
      · next h3 => exact Or.inr ⟨rfl, h2, h3⟩
      · exact Or.inl rfl
    · exact Or.inl rfl

theorem stepTracks_track_preserve (P : SineTrack → Prop) (p now : ℕ)
    (h : ∀ (t : SineTrack) (m : MorseState), P t → P (stepTrack p now t m).1) :
    ∀ (ts : List SineTrack) (m : MorseState), (∀ t ∈ ts, P t) →
      ∀ t ∈ (stepTracks p now ts m).1, P t := by
  intro ts
  induction ts with
  | nil => intro m _ t ht; simp [stepTracks] at ht
  | cons t0 rest ih =>
    intro m hall t ht
    rw [stepTracks] at ht
    simp only [List.mem_cons] at ht
    rcases ht with rfl | ht
    · exact h t0 m (hall t0 (List.mem_cons_self t0 rest))
    · exact ih _ (fun x hx => hall x (List.mem_cons_of_mem t0 hx)) t ht

theorem stepTracks_morse_preserve (Q : MorseState → Prop) (p now : ℕ)
    (h : ∀ (t : SineTrack) (m : MorseState), Q m → Q (stepTrack p now t m).2) :
    ∀ (ts : List SineTrack) (m : MorseState), Q m → Q (stepTracks p now ts m).2 := by
  intro ts
  induction ts with
  | nil => intro m hm; exact hm
  | cons t0 rest ih =>
    intro m hm
    rw [stepTracks]
    exact ih _ (h t0 m hm)

theorem morseExtends_refl (m : MorseState) : morseExtends m m :=
  ⟨le_refl _, fun _ _ => rfl⟩

theorem morseExtends_trans (m1 m2 m3 : MorseState)
    (h12 : morseExtends m1 m2) (h23 : morseExtends m2 m3) : morseExtends m1 m3 := by
  refine ⟨le_trans h12.1 h23.1, ?_⟩
  intro i hi
  rw [h23.2 i (lt_of_lt_of_le hi h12.1), h12.2 i hi]

theorem stepTrack_morseExtends (p now : ℕ) (t : SineTrack) (m : MorseState) :
    morseExtends m (stepTrack p now t m).2 := by
  rcases stepTrack_morse_cases p now t m with h | ⟨h, _, _⟩
  · rw [h]; exact morseExtends_refl m
  · rw [h]
    exact ⟨appendSymbol_len_le _ _ _, fun i hi => appendSymbol_keeps_written _ _ _ i hi⟩

theorem stepTracks_morseExtends (p now : ℕ) :
    ∀ (ts : List SineTrack) (m : MorseState), morseExtends m (stepTracks p now ts m).2 := by
  intro ts
  induction ts with
  | nil => intro m; exact morseExtends_refl m
  | cons t0 rest ih =>
    intro m
    rw [stepTracks]
    exact morseExtends_trans _ _ _ (stepTrack_morseExtends p now t0 m) (ih _)

theorem stepTrack_bufInv (p now : ℕ) (t : SineTrack) (m : MorseState) (h : bufInv m) :
    bufInv (stepTrack p now t m).2 := by
  rcases stepTrack_morse_cases p now t m with heq | ⟨heq, _, _⟩
  · rw [heq]; exact h
  · rw [heq]
    exact appendSymbol_inv _ _ _ h.1 h.2.1 h.2.2

/-! ### Claim C8 -/

/-- C8: Morse classification and estimate convergence.  With a positive
unit estimate, a completed tone of duration exactly `1 × dot_ms`
classifies short and one of exactly `3 × dot_ms` classifies long; each
short-classified tone of duration `d` moves the estimate so that
`|dot_ms' − d| = 0.8 · |dot_ms − d|`; and over `N` consecutive tones of
the same duration `d` that each classify short, the error shrinks to
`0.8^N` of the initial error, monotonically. -/
theorem c8_morse_classification :
    (∀ dot : ℚ, 0 < dot → classifySymbol dot dot = '.') ∧
    (∀ dot : ℚ, 0 < dot → classifySymbol (3 * dot) dot = '-') ∧
    (∀ dot d : ℚ, d < 2 * dot → |updatedDot d dot - d| = (4/5) * |dot - d|) ∧
    (∀ dot d : ℚ, ∀ N : ℕ, (∀ k < N, d < 2 * dotIter d dot k) →
      |dotIter d dot N - d| = (4/5) ^ N * |dot - d| ∧
      ∀ k < N, |dotIter d dot (k + 1) - d| ≤ |dotIter d dot k - d|) := by
  have hshortStep : ∀ dot d : ℚ, d < 2 * dot →
      |updatedDot d dot - d| = (4/5) * |dot - d| := by
    intro dot d h
    unfold updatedDot
    rw [if_pos (by linarith)]
    have heq : (1 - DOT_EST_ALPHA) * dot + DOT_EST_ALPHA * d - d = (4/5) * (dot - d) := by
      unfold DOT_EST_ALPHA
      ring
    rw [heq, abs_mul, abs_of_pos (by norm_num : (0 : ℚ) < 4/5)]
  refine ⟨?_, ?_, hshortStep, ?_⟩
  · intro dot h
    unfold classifySymbol
    rw [if_pos (by linarith)]
  · intro dot h
    unfold classifySymbol
    rw [if_neg (by intro hlt; linarith)]
  · intro dot d N
    induction N with
    | zero =>
      intro _
      refine ⟨by simp [dotIter], ?_⟩
      intro k hk
      exact absurd hk (Nat.not_lt_zero k)
    | succ N ih =>
      intro hshort
      have hN := ih (fun k hk => hshort k (Nat.lt_succ_of_lt hk))
      have hstep : |dotIter d dot (N + 1) - d| = (4/5) * |dotIter d dot N - d| := by
        have := hshortStep (dotIter d dot N) d (hshort N (Nat.lt_succ_self N))
        simpa [dotIter] using this
      refine ⟨?_, ?_⟩
      · rw [hstep, hN.1, pow_succ]
        ring
      · intro k hk
        rcases Nat.lt_succ_iff_lt_or_eq.mp hk with hk' | rfl
        · exact hN.2 k hk'
        · rw [hstep]
          have := abs_nonneg (dotIter d dot k - d)
          linarith

/-- Concrete instance of C8: with the initial 120 ms estimate, a 120 ms
tone is a dot, a 360 ms tone is a dash, and one 100 ms short tone cuts
the estimate error to 0.8 of its previous value. -/
theorem c8_morse_classification_witness :
    classifySymbol 120 120 = '.' ∧ classifySymbol (3 * 120) 120 = '-' ∧
    |updatedDot 100 120 - 100| = (4/5) * |(120 : ℚ) - 100| ∧
    |dotIter 100 120 1 - 100| = (4/5) ^ 1 * |(120 : ℚ) - 100| := by
  have h := c8_morse_classification
  refine ⟨h.1 120 (by norm_num), h.2.1 120 (by norm_num), h.2.2.1 120 100 (by norm_num), ?_⟩
  refine (h.2.2.2 120 100 1 ?_).1
  intro k hk
  have hk0 : k = 0 := by omega
  subst hk0
  show (100 : ℚ) < 2 * dotIter 100 120 0
  norm_num [dotIter]

/-! ### Evaluation helpers for concrete runs -/

theorem tail_replicate_eq {α : Type} (n : ℕ) (a : α) :
    (List.replicate n a).tail = List.replicate (n - 1) a := by
  cases n <;> simp

theorem getD_replicate_zero (n j : ℕ) : (List.replicate n (0 : ℚ)).getD j 0 = 0 := by
  rw [List.getD_eq_getElem?_getD, List.getElem?_replicate]
  split <;> rfl

theorem replicate_five {α : Type} (a : α) : List.replicate 5 a = [a, a, a, a, a] := rfl

/-! ### Claim C3 -/

/-- C3: Track matching and claiming.  `trackMatches` is exactly the
non-empty-within-5-Hz test; when some track matches, the first matching
slot (in slot order) is smoothed (`freq = 0.9·old + 0.1·new`, purity set
to the latest peak purity in percent, `last_seen = now`) and the rest are
untouched; otherwise the first empty slot, if any, is claimed with
`pending_since = now`, `last_seen = now`, `tone_start = 0`,
`active = false`; with no match and no empty slot the peak is discarded. -/
theorem c3_track_matching (tracks : List SineTrack) (f pu : ℚ) (now : ℕ) :
    (∀ t : SineTrack, trackMatches f t = true ↔
      t.start_time ≠ 0 ∧ |t.freq - f| ≤ FREQUENCY_TOLERANCE) ∧
    (∀ i, findFirstIdx (trackMatches f) tracks = some i →
      i < tracks.length ∧ trackMatches f (tracks.getD i default) = true ∧
      (∀ j < i, trackMatches f (tracks.getD j default) = false) ∧
      update_track tracks f pu now =
        tracks.set i (smoothedUpdate (tracks.getD i default) f pu now)) ∧
    (∀ t : SineTrack, (smoothedUpdate t f pu now).freq = t.freq * (9/10) + f * (1/10) ∧
      (smoothedUpdate t f pu now).purity = pu * 100 ∧
      (smoothedUpdate t f pu now).last_seen = now ∧
      (smoothedUpdate t f pu now).start_time = t.start_time ∧
      (smoothedUpdate t f pu now).tone_start = t.tone_start ∧
      (smoothedUpdate t f pu now).active = t.active) ∧
    (findFirstIdx (trackMatches f) tracks = none →
      (∀ j, findFirstIdx (fun t => t.start_time == 0) tracks = some j →
        j < tracks.length ∧ (tracks.getD j default).start_time = 0 ∧
        (∀ i < j, (tracks.getD i default).start_time ≠ 0) ∧
        update_track tracks f pu now = tracks.set j (freshTrack f pu now)) ∧
      (findFirstIdx (fun t => t.start_time == 0) tracks = none →
        update_track tracks f pu now = tracks)) ∧
    ((freshTrack f pu now).start_time = now ∧ (freshTrack f pu now).last_seen = now ∧
      (freshTrack f pu now).tone_start = 0 ∧ (freshTrack f pu now).active = false ∧
      (freshTrack f pu now).freq = f ∧ (freshTrack f pu now).purity = pu * 100) := by
  refine ⟨?_, ?_, ?_, ?_, ?_⟩
  · intro t
    unfold trackMatches
    exact decide_eq_true_iff
  · intro i hi
    obtain ⟨hlen, hp, hprev⟩ := findFirstIdx_some _ tracks i hi
    exact ⟨hlen, hp, hprev, update_track_matched tracks f pu now i hi⟩
  · intro t
    exact ⟨rfl, rfl, rfl, rfl, rfl, rfl⟩
  · intro hnone
    refine ⟨?_, ?_⟩
    · intro j hj
      obtain ⟨hlen, hp, hprev⟩ := findFirstIdx_some _ tracks j hj
      refine ⟨hlen, by simpa using hp, ?_, update_track_claimed tracks f pu now j hnone hj⟩
      intro i hij
      have := hprev i hij
      simpa using this
    · intro hnone2
      exact update_track_full tracks f pu now hnone hnone2
  · exact ⟨rfl, rfl, rfl, rfl, rfl, rfl⟩

/-- Concrete instance of C3: a peak at 103 Hz matches a 100 Hz track and
smooths it. -/
theorem c3_track_matching_witness :
    update_track [⟨100, 50, 500, 600, 0, false⟩] 103 (4/5) 700 =
      [smoothedUpdate ⟨100, 50, 500, 600, 0, false⟩ 103 (4/5) 700] := by
  have h := (c3_track_matching [⟨100, 50, 500, 600, 0, false⟩] 103 (4/5) 700).2.1 0
    (by norm_num [findFirstIdx, trackMatches, FREQUENCY_TOLERANCE])
  simpa using h.2.2.2

/-! ### Claim C4 -/

/-- C4: Deactivation and symbol emission.  An active track unmatched for
the full persistence window is reset to an empty slot while one symbol
is decoded from `duration = last_seen − tone_start` (short iff
`duration < 2 × dot_ms`) and the estimate is moved by the α = 0.2
exponential average (using `duration` for short, `duration/3` for long);
while `now − last_seen < persistence` the active track and the decoder
state are left unchanged. -/
theorem c4_deactivation_symbol (persistence now : ℕ) (t : SineTrack) (m : MorseState)
    (ha : t.active = true) :
    (persistence ≤ now - t.last_seen →
      stepTrack persistence now t m =
        ({ t with active := false, start_time := 0, tone_start := 0 },
         { estimated_dot_ms :=
             updatedDot ((t.last_seen - t.tone_start : ℕ) : ℚ) m.estimated_dot_ms,
           morse_buffer := (appendSymbol m.morse_buffer m.morse_length
             (classifySymbol ((t.last_seen - t.tone_start : ℕ) : ℚ) m.estimated_dot_ms)).1,
           morse_length := (appendSymbol m.morse_buffer m.morse_length
             (classifySymbol ((t.last_seen - t.tone_start : ℕ) : ℚ) m.estimated_dot_ms)).2 })) ∧
    (now - t.last_seen < persistence → stepTrack persistence now t m = (t, m)) ∧
    (∀ d dot : ℚ, (d < 2 * dot → classifySymbol d dot = '.') ∧
      (2 * dot ≤ d → classifySymbol d dot = '-') ∧
      (d < 2 * dot → updatedDot d dot = (1 - 1/5) * dot + (1/5) * d) ∧
      (2 * dot ≤ d → updatedDot d dot = (1 - 1/5) * dot + (1/5) * (d / 3))) := by
  refine ⟨?_, ?_, ?_⟩
  · intro h3
    unfold stepTrack
    rw [if_neg (by simp [ha]), if_pos ha, if_pos h3]
  · intro h3
    unfold stepTrack
    rw [if_neg (by simp [ha]), if_pos ha, if_neg (not_le.mpr h3)]
  · intro d dot
    refine ⟨?_, ?_, ?_, ?_⟩
    · intro h
      unfold classifySymbol
      rw [if_pos (by linarith)]
    · intro h
      unfold classifySymbol
      rw [if_neg (by intro hlt; linarith)]
    · intro h
      unfold updatedDot DOT_EST_ALPHA
      rw [if_pos (by linarith)]
    · intro h
      unfold updatedDot DOT_EST_ALPHA
      rw [if_neg (by intro hlt; linarith)]

/-- Concrete instance of C4: a 400 ms tone retires as a dash and the
slot empties, with the estimate moving to 0.8·120 + 0.2·(400/3) ms. -/
theorem c4_deactivation_symbol_witness :
    stepTrack 200 1700 ⟨100, 95, 1000, 1400, 1000, true⟩
        ⟨120, List.replicate 256 (Char.ofNat 0), 0⟩ =
      (⟨100, 95, 0, 1400, 0, false⟩,
       ⟨368/3, ((List.replicate 256 (Char.ofNat 0)).set 0 '-').set 1 (Char.ofNat 0), 1⟩) := by
  have h := (c4_deactivation_symbol 200 1700 ⟨100, 95, 1000, 1400, 1000, true⟩
      ⟨120, List.replicate 256 (Char.ofNat 0), 0⟩ rfl).1 (by norm_num)
  rw [h]
  norm_num [updatedDot, classifySymbol, appendSymbol, DOT_EST_ALPHA, MORSE_BUFFER_SIZE]

/-! ### Claim C10 -/

/-- C10: Symbol buffer overflow policy and bounds.  After every frame the
symbol count stays strictly below `MORSE_BUFFER_SIZE` with a NUL
terminator at `morse_length`; a symbol arriving when
`morse_length = MORSE_BUFFER_SIZE − 1` is dropped with buffer and length
unchanged (drop-new), while the track slot is still reset and the unit
estimate still updated; and appends never shrink the count or modify
already-written symbols. -/
theorem c10_symbol_buffer :
    bufInv initState.morse ∧
    (∀ (cfg : Config) (raw : List ℚ) (now : ℕ) (s : DetState), bufInv s.morse →
      bufInv (processFrame cfg raw now s).morse) ∧
    (∀ (buf : List Char) (c : Char),
      appendSymbol buf (MORSE_BUFFER_SIZE - 1) c = (buf, MORSE_BUFFER_SIZE - 1)) ∧
    (∀ (p now : ℕ) (t : SineTrack) (m : MorseState), t.active = true →
      p ≤ now - t.last_seen → m.morse_length = MORSE_BUFFER_SIZE - 1 →
      stepTrack p now t m =
        ({ t with active := false, start_time := 0, tone_start := 0 },
         { estimated_dot_ms :=
             updatedDot ((t.last_seen - t.tone_start : ℕ) : ℚ) m.estimated_dot_ms,
           morse_buffer := m.morse_buffer, morse_length := m.morse_length })) ∧
    (∀ (cfg : Config) (raw : List ℚ) (now : ℕ) (s : DetState),
      s.morse.morse_length ≤ (processFrame cfg raw now s).morse.morse_length ∧
      ∀ i < s.morse.morse_length,
        (processFrame cfg raw now s).morse.morse_buffer.getD i 'A' =
          s.morse.morse_buffer.getD i 'A') := by
  refine ⟨?_, ?_, ?_, ?_, ?_⟩
  · refine ⟨by simp [initState], by norm_num [initState, MORSE_BUFFER_SIZE], ?_⟩
    show (List.replicate MORSE_BUFFER_SIZE (Char.ofNat 0)).getD 0 'A' = Char.ofNat 0
    rw [List.getD_eq_getElem?_getD, List.getElem?_replicate,
      if_pos (by norm_num [MORSE_BUFFER_SIZE])]
    rfl
  · intro cfg raw now s h
    exact stepTracks_morse_preserve bufInv _ _
      (fun t m hm => stepTrack_bufInv _ _ t m hm) _ s.morse h
  · intro buf c
    exact appendSymbol_full buf c
  · intro p now t m ha h3 hfull
    unfold stepTrack
    rw [if_neg (by simp [ha]), if_pos ha, if_pos h3, hfull]
    simp only [appendSymbol_full]
  · intro cfg raw now s
    have h := stepTracks_morseExtends cfg.persistence_threshold_ms now
      (processPeaks cfg.bandpass_low_hz cfg.bandpass_high_hz (frameDetPowers cfg raw s)
        (frameTotalPower cfg raw s) now s.tracks) s.morse
    exact ⟨h.1, h.2⟩

/-- Concrete instances of C10: the initial buffer is well formed and
stays so across a frame, and a dash arriving at a full buffer is dropped
while the slot still resets and the estimate still moves. -/
theorem c10_symbol_buffer_witness :
    bufInv (processFrame cfgDefault toneRaw 1000 initState).morse ∧
    appendSymbol (List.replicate 256 (Char.ofNat 0)) (MORSE_BUFFER_SIZE - 1) '.' =
      (List.replicate 256 (Char.ofNat 0), MORSE_BUFFER_SIZE - 1) ∧
    stepTrack 200 1700 ⟨100, 95, 1000, 1400, 1000, true⟩
        ⟨120, List.replicate 256 (Char.ofNat 0), 255⟩ =
      (⟨100, 95, 0, 1400, 0, false⟩,
       ⟨368/3, List.replicate 256 (Char.ofNat 0), 255⟩) := by
  have h := c10_symbol_buffer
  refine ⟨h.2.1 cfgDefault toneRaw 1000 initState h.1, h.2.2.1 _ '.', ?_⟩
  have h4 := h.2.2.2.1 200 1700 ⟨100, 95, 1000, 1400, 1000, true⟩
    ⟨120, List.replicate 256 (Char.ofNat 0), 255⟩ rfl (by norm_num)
    (by norm_num [MORSE_BUFFER_SIZE])
  rw [h4]
  norm_num [updatedDot, classifySymbol, DOT_EST_ALPHA]

/-! ### Claim C5 -/

/-- C5: Degenerate-frame handling.  In a frame whose post-squelch total
power is zero, the guarded qualification loop produces no qualifying
peaks (so the purity quotient is never used), matching leaves every
track untouched, and the frame's whole effect on the tracks and decoder
reduces to the timeout state machine applied to the unchanged tracks. -/
theorem c5_degenerate_frame (cfg : Config) (raw : List ℚ) (now : ℕ) (s : DetState)
    (h : frameTotalPower cfg raw s = 0) :
    qualifiedPeaks cfg.bandpass_low_hz cfg.bandpass_high_hz (frameDetPowers cfg raw s)
        (frameTotalPower cfg raw s) = [] ∧
    processPeaks cfg.bandpass_low_hz cfg.bandpass_high_hz (frameDetPowers cfg raw s)
        (frameTotalPower cfg raw s) now s.tracks = s.tracks ∧
    (processFrame cfg raw now s).tracks =
      (stepTracks cfg.persistence_threshold_ms now s.tracks s.morse).1 ∧
    (processFrame cfg raw now s).morse =
      (stepTracks cfg.persistence_threshold_ms now s.tracks s.morse).2 := by
  have h1 : qualifiedPeaks cfg.bandpass_low_hz cfg.bandpass_high_hz
      (frameDetPowers cfg raw s) (frameTotalPower cfg raw s) = [] := by
    unfold qualifiedPeaks
    rw [if_pos h]
  have h2 : processPeaks cfg.bandpass_low_hz cfg.bandpass_high_hz
      (frameDetPowers cfg raw s) (frameTotalPower cfg raw s) now s.tracks = s.tracks := by
    unfold processPeaks
    exact foldl_peaks_total_zero _ _ _ _ _ h _ _
  refine ⟨h1, h2, ?_, ?_⟩
  · show (stepTracks cfg.persistence_threshold_ms now
        (processPeaks cfg.bandpass_low_hz cfg.bandpass_high_hz (frameDetPowers cfg raw s)
          (frameTotalPower cfg raw s) now s.tracks) s.morse).1 = _
    rw [h2]
  · show (stepTracks cfg.persistence_threshold_ms now
        (processPeaks cfg.bandpass_low_hz cfg.bandpass_high_hz (frameDetPowers cfg raw s)
          (frameTotalPower cfg raw s) now s.tracks) s.morse).2 = _
    rw [h2]

/-- Concrete instance of C5: an all-zero frame has zero total power and
changes no track of the initial state. -/
theorem c5_degenerate_frame_witness :
    frameTotalPower cfgDefault silenceRaw initState = 0 ∧
    (processFrame cfgDefault silenceRaw 1000 initState).tracks =
      (stepTracks cfgDefault.persistence_threshold_ms 1000 initState.tracks
        initState.morse).1 := by
  have htot : frameTotalPower cfgDefault silenceRaw initState = 0 := by
    norm_num [frameTotalPower, frameDetPowers, framePowers, filterFrom, maskedPower,
      squelchBin, silenceRaw, cfgDefault, initState, tail_replicate_eq, getD_replicate_zero,
      freq_resolution, SAMPLE_RATE, FFT_SIZE, halfSize, max_possible_power]
  exact ⟨htot, (c5_degenerate_frame cfgDefault silenceRaw 1000 initState htot).2.2.1⟩

/-! ### Claim C9 -/

/-- C9: Track three-state invariant.  The empty, pending and active
states of the spec's data model are mutually exclusive, every slot of
the initial state is in one of them, and the invariant is preserved by
peak matching (`update_track`), by the timing state machine and by a
whole frame, for any positive persistence threshold. -/
theorem c9_three_state_invariant :
    (∀ t : SineTrack, ¬(isEmptySlot t ∧ isPendingSlot t) ∧
      ¬(isEmptySlot t ∧ isActiveSlot t) ∧ ¬(isPendingSlot t ∧ isActiveSlot t)) ∧
    (∀ (tracks : List SineTrack) (f pu : ℚ) (now : ℕ), (∀ t ∈ tracks, trackInv t) →
      ∀ t ∈ update_track tracks f pu now, trackInv t) ∧
    (∀ (p now : ℕ) (ts : List SineTrack) (m : MorseState), 0 < p →
      (∀ t ∈ ts, trackInv t) → ∀ t ∈ (stepTracks p now ts m).1, trackInv t) ∧
    (∀ (cfg : Config) (raw : List ℚ) (now : ℕ) (s : DetState),
      0 < cfg.persistence_threshold_ms → (∀ t ∈ s.tracks, trackInv t) →
      ∀ t ∈ (processFrame cfg raw now s).tracks, trackInv t) ∧
    (∀ t ∈ initState.tracks, trackInv t) := by
  have hupd : ∀ (tracks : List SineTrack) (f pu : ℚ) (now : ℕ),
      (∀ t ∈ tracks, trackInv t) → ∀ t ∈ update_track tracks f pu now, trackInv t := by
    intro tracks f pu now hall
    refine update_track_preserve trackInv tracks f pu now ?_ ?_ hall
    · intro t ht _
      rcases ht with he | hp | ha
      · exact Or.inl he
      · exact Or.inr (Or.inl hp)
      · exact Or.inr (Or.inr ha)
    · by_cases hn : now = 0
      · subst hn
        exact Or.inl ⟨rfl, rfl⟩
      · exact Or.inr (Or.inl ⟨hn, rfl⟩)
  have hstep : ∀ (p now : ℕ), 0 < p → ∀ (t : SineTrack) (m : MorseState), trackInv t →
      trackInv (stepTrack p now t m).1 := by
    intro p now hp t m ht
    rcases stepTrack_cases p now t m with heq | ⟨heq, hs, _, h3⟩ | ⟨heq, _, _⟩
    · rw [heq]; exact ht
    · rw [heq]
      have hnow : now ≠ 0 := by omega
      exact Or.inr (Or.inr ⟨rfl, hnow⟩)
    · rw [heq]
      exact Or.inl ⟨rfl, rfl⟩
  have hsteps : ∀ (p now : ℕ) (ts : List SineTrack) (m : MorseState), 0 < p →
      (∀ t ∈ ts, trackInv t) → ∀ t ∈ (stepTracks p now ts m).1, trackInv t := by
    intro p now ts m hp hall
    exact stepTracks_track_preserve trackInv p now (fun t m ht => hstep p now hp t m ht)
      ts m hall
  refine ⟨?_, hupd, hsteps, ?_, ?_⟩
  · intro t
    refine ⟨?_, ?_, ?_⟩
    · rintro ⟨h1, h2⟩
      exact h2.1 h1.1
    · rintro ⟨h1, h2⟩
      have ha : t.active = true := h2.1
      rw [h1.2] at ha
      exact Bool.false_ne_true ha
    · rintro ⟨h1, h2⟩
      have ha : t.active = true := h2.1
      rw [h1.2] at ha
      exact Bool.false_ne_true ha
  · intro cfg raw now s hp hall
    have hmid : ∀ t ∈ processPeaks cfg.bandpass_low_hz cfg.bandpass_high_hz
        (frameDetPowers cfg raw s) (frameTotalPower cfg raw s) now s.tracks, trackInv t := by
      rw [processPeaks_eq_qualified]
      exact qualified_foldl_preserve trackInv now _
        (fun ts fp _ h => hupd ts fp.1 fp.2 now h) s.tracks hall
    exact hsteps cfg.persistence_threshold_ms now _ s.morse hp hmid
  · intro t ht
    have : t = emptyTrack := List.eq_of_mem_replicate ht
    subst this
    exact Or.inl ⟨rfl, rfl⟩

/-- Concrete instance of C9: after the two-frame run that activates a
track, slot 0 still satisfies the three-state invariant. -/
theorem c9_three_state_invariant_witness :
    trackInv ((processFrame cfgDefault toneRaw 1000 initState).tracks.getD 0 emptyTrack) := by
  have h := c9_three_state_invariant
  refine h.2.2.2.1 cfgDefault toneRaw 1000 initState (by norm_num [cfgDefault])
    h.2.2.2.2 _ ?_
  have hlen : 0 < (processFrame cfgDefault toneRaw 1000 initState).tracks.length := by
    norm_num [processFrame, framePowers, frameDetPowers, frameTotalPower, frameMagnitudes,
      filterFrom, maskedPower, squelchBin, processPeaks, peakStep, qualifies, peakPower,
      update_track, findFirstIdx, trackMatches, smoothedUpdate, freshTrack, stepTracks,
      stepTrack, classifySymbol, updatedDot, appendSymbol, findPeaks, findPeaksAux, bestBin,
      bestAux, markUsed, markFrom, usedFoldFrom, initState, cfgDefault, toneRaw,
      emptyTrack, freq_resolution, SAMPLE_RATE, FFT_SIZE, halfSize, DETECT_THRESHOLD,
      FREQUENCY_TOLERANCE, PEAK_SUPPRESS_BINS, MAX_TRACKED_SINES, MORSE_BUFFER_SIZE,
      DOT_EST_ALPHA, AVERAGING_ALPHA, max_possible_power, List.range', List.getD,
      tail_replicate_eq, getD_replicate_zero, replicate_five]
  rw [List.getD_eq_getElem?_getD, List.getElem?_eq_getElem hlen]
  exact List.getElem_mem hlen

/-! ### Band-pass run invariant -/

theorem inBandInv_update (low high : ℚ) (now : ℕ) (fp : ℚ × ℚ)
    (hlow : low ≤ fp.1) (hhigh : fp.1 ≤ high) :
    ∀ (ts : List SineTrack), (∀ t ∈ ts, inBandInv low high t) →
      ∀ t ∈ update_track ts fp.1 fp.2 now, inBandInv low high t := by
  intro ts hts
  refine update_track_preserve (inBandInv low high) ts fp.1 fp.2 now ?_ ?_ hts
  · intro t ht hm
    have hm' : t.start_time ≠ 0 ∧ |t.freq - fp.1| ≤ FREQUENCY_TOLERANCE :=
      of_decide_eq_true hm
    have hband := ht.2 hm'.1
    refine ⟨fun hh => ht.1 hh, fun _ => ⟨?_, ?_⟩⟩
    · show low ≤ t.freq * (9/10) + fp.1 * (1/10)
      linarith [hband.1, hband.2]
    · show t.freq * (9/10) + fp.1 * (1/10) ≤ high
      linarith [hband.1, hband.2]
  · exact ⟨fun hh => (Bool.false_ne_true hh).elim, fun _ => ⟨hlow, hhigh⟩⟩

theorem inBandInv_stepTrack (low high : ℚ) (p now : ℕ) (t : SineTrack) (m : MorseState)
    (ht : inBandInv low high t) : inBandInv low high (stepTrack p now t m).1 := by
  rcases stepTrack_cases p now t m with heq | ⟨heq, hs, _, _⟩ | ⟨heq, _, _⟩
  · rw [heq]; exact ht
  · rw [heq]
    exact ⟨fun _ => hs, fun _ => ht.2 hs⟩
  · rw [heq]
    exact ⟨fun hh => (Bool.false_ne_true hh).elim, fun hh => (hh rfl).elim⟩

theorem frameStateInv_processFrame (cfg : Config) (raw : List ℚ) (now : ℕ) (s : DetState)
    (h : frameStateInv cfg.bandpass_low_hz cfg.bandpass_high_hz s) :
    frameStateInv cfg.bandpass_low_hz cfg.bandpass_high_hz (processFrame cfg raw now s) := by
  obtain ⟨htr, hav⟩ := h
  constructor
  · show ∀ t ∈ (stepTracks cfg.persistence_threshold_ms now
        (processPeaks cfg.bandpass_low_hz cfg.bandpass_high_hz (frameDetPowers cfg raw s)
          (frameTotalPower cfg raw s) now s.tracks) s.morse).1,
      inBandInv cfg.bandpass_low_hz cfg.bandpass_high_hz t
    have hmid : ∀ t ∈ processPeaks cfg.bandpass_low_hz cfg.bandpass_high_hz
        (frameDetPowers cfg raw s) (frameTotalPower cfg raw s) now s.tracks,
        inBandInv cfg.bandpass_low_hz cfg.bandpass_high_hz t := by
      rw [processPeaks_eq_qualified]
      refine qualified_foldl_preserve (inBandInv cfg.bandpass_low_hz cfg.bandpass_high_hz)
        now _ ?_ s.tracks htr
      intro ts fp hfp hts
      obtain ⟨_, _, hlow, hhigh, _⟩ := qualifiedPeaks_mem _ _ _ _ fp hfp
      exact inBandInv_update _ _ now fp hlow hhigh ts hts
    exact stepTracks_track_preserve _ _ _
      (fun t m ht => inBandInv_stepTrack _ _ _ _ t m ht) _ s.morse hmid
  · show ∀ i : ℕ, ((i : ℚ) * freq_resolution < cfg.bandpass_low_hz ∨
        cfg.bandpass_high_hz < (i : ℚ) * freq_resolution) →
      (framePowers cfg raw s).getD i 0 = 0
    intro i hi
    by_cases hlen : i < raw.length
    · unfold framePowers
      rw [filterFrom_getD _ _ _ raw 0 i s.avg_powers hlen]
      have hmask : maskedPower cfg.bandpass_low_hz cfg.bandpass_high_hz (0 + i)
          (raw.getD i 0) = 0 := by
        unfold maskedPower
        rw [if_pos (by simpa using hi)]
      rw [hmask, hav i hi]
      split <;> ring
    · have : raw.length ≤ i := Nat.le_of_not_lt hlen
      rw [List.getD_eq_getElem?_getD, List.getElem?_eq_none (by
        rw [framePowers, filterFrom_length]; exact this)]
      rfl

theorem frameStateInv_run (cfg : Config) :
    ∀ (frames : List (List ℚ × ℕ)) (s : DetState),
      frameStateInv cfg.bandpass_low_hz cfg.bandpass_high_hz s →
      frameStateInv cfg.bandpass_low_hz cfg.bandpass_high_hz (processFrames cfg frames s) := by
  intro frames
  induction frames with
  | nil => intro s hs; exact hs
  | cons fr rest ih =>
    intro s hs
    rw [processFrames, List.foldl_cons]
    exact ih _ (frameStateInv_processFrame cfg fr.1 fr.2 s hs)

theorem frameStateInv_init (low high : ℚ) : frameStateInv low high initState := by
  constructor
  · intro t ht
    have : t = emptyTrack := List.eq_of_mem_replicate ht
    subst this
    exact ⟨fun hh => (Bool.false_ne_true hh).elim, fun hh => (hh rfl).elim⟩
  · intro i _
    exact getD_replicate_zero halfSize i

/-! ### Claim C6 -/

/-- C6: Band-pass masking.  Under any fixed cutoffs, every run from the
initial state keeps every out-of-band bin of the smoothed spectrum at
zero power (the frequency-domain mask), and every track that is active
after the run has its frequency inside `[low, high]` — so a tone outside
the band can never be reported through an active track. -/
theorem c6_bandpass_masking (cfg : Config) (frames : List (List ℚ × ℕ)) :
    (∀ i : ℕ,
      ((processFrames cfg frames initState).tracks.getD i emptyTrack).active = true →
        cfg.bandpass_low_hz ≤
          ((processFrames cfg frames initState).tracks.getD i emptyTrack).freq ∧
        ((processFrames cfg frames initState).tracks.getD i emptyTrack).freq ≤
          cfg.bandpass_high_hz) ∧
    (∀ i : ℕ, ((i : ℚ) * freq_resolution < cfg.bandpass_low_hz ∨
        cfg.bandpass_high_hz < (i : ℚ) * freq_resolution) →
      (processFrames cfg frames initState).avg_powers.getD i 0 = 0) := by
  have hinv := frameStateInv_run cfg frames initState
    (frameStateInv_init cfg.bandpass_low_hz cfg.bandpass_high_hz)
  refine ⟨?_, hinv.2⟩
  intro i hact
  by_cases hlen : i < (processFrames cfg frames initState).tracks.length
  · have hmem : (processFrames cfg frames initState).tracks.getD i emptyTrack ∈
        (processFrames cfg frames initState).tracks := by
      rw [List.getD_eq_getElem?_getD, List.getElem?_eq_getElem hlen]
      exact List.getElem_mem hlen
    have hband := hinv.1 _ hmem
    exact hband.2 (hband.1 hact)
  · have heq : (processFrames cfg frames initState).tracks.getD i emptyTrack = emptyTrack := by
      rw [List.getD_eq_getElem?_getD,
        List.getElem?_eq_none (Nat.le_of_not_lt hlen)]
      rfl
    rw [heq] at hact
    exact absurd hact (Bool.false_ne_true)

/-- Concrete instance of C6: after a tone frame and a silent frame the
activated track's frequency lies inside the default band, and the DC
bin (0 Hz, below the 20 Hz cutoff) holds zero smoothed power. -/
theorem c6_bandpass_masking_witness :
    ((processFrames cfgDefault [(toneRaw, 1000), (silenceRaw, 1200)] initState).tracks.getD 0
        emptyTrack).active = true ∧
    cfgDefault.bandpass_low_hz ≤
      ((processFrames cfgDefault [(toneRaw, 1000), (silenceRaw, 1200)] initState).tracks.getD 0
        emptyTrack).freq ∧
    ((processFrames cfgDefault [(toneRaw, 1000), (silenceRaw, 1200)] initState).tracks.getD 0
        emptyTrack).freq ≤ cfgDefault.bandpass_high_hz ∧
    (processFrames cfgDefault [(toneRaw, 1000), (silenceRaw, 1200)]
        initState).avg_powers.getD 0 0 = 0 := by
  have hact : ((processFrames cfgDefault [(toneRaw, 1000), (silenceRaw, 1200)]
      initState).tracks.getD 0 emptyTrack).active = true := by
    norm_num [processFrames, processFrame, framePowers, frameDetPowers, frameTotalPower,
      frameMagnitudes, filterFrom, maskedPower, squelchBin, processPeaks, peakStep,
      qualifies, peakPower, update_track, findFirstIdx, trackMatches, smoothedUpdate,
      freshTrack, stepTracks, stepTrack, classifySymbol, updatedDot, appendSymbol,
      findPeaks, findPeaksAux, bestBin, bestAux, markUsed, markFrom, usedFoldFrom,
      initState, cfgDefault, toneRaw, silenceRaw, emptyTrack, freq_resolution, SAMPLE_RATE,
      FFT_SIZE, halfSize, DETECT_THRESHOLD, FREQUENCY_TOLERANCE, PEAK_SUPPRESS_BINS,
      MAX_TRACKED_SINES, MORSE_BUFFER_SIZE, DOT_EST_ALPHA, AVERAGING_ALPHA,
      max_possible_power, List.range', List.getD, tail_replicate_eq, getD_replicate_zero,
      replicate_five]
  have h := c6_bandpass_masking cfgDefault [(toneRaw, 1000), (silenceRaw, 1200)]
  have hb := h.1 0 hact
  refine ⟨hact, hb.1, hb.2, h.2 0 ?_⟩
  left
  norm_num [freq_resolution, SAMPLE_RATE, FFT_SIZE, cfgDefault]

/-! ### Claim C2 -/

/-- C2: Peak extraction.  Per frame the extractor runs at most
`MAX_TRACKED_SINES = 5` rounds; the `i`-th recorded peak is exactly the
inner scan's choice against the `used` array left by the earlier peaks,
and a shortfall of rounds means no unused candidate remained; the inner
scan, whenever it returns a bin, returns an unused bin in `1 .. N/2−2` of
positive power that beats its left neighbour strictly and its right
neighbour weakly and has maximal power among all such bins (and returns
none exactly when no such bin exists); suppression marks precisely the
bins within `±PEAK_SUPPRESS_BINS = 2`; and the assignment loop is the
fold of `update_track` over exactly those peaks whose purity
`(powers[i−1..i+1])/total` exceeds `DETECT_THRESHOLD = 0.7` and whose
frequency lies within `[low, high]`. -/
theorem c2_peak_extraction (low high : ℚ) (powers : List ℚ) (total : ℚ) (now : ℕ)
    (tracks : List SineTrack) :
    (findPeaks powers).length ≤ MAX_TRACKED_SINES ∧
    (∀ i, i < (findPeaks powers).length →
      bestBin powers (usedFor powers ((findPeaks powers).take i)) =
        some ((findPeaks powers).getD i 0)) ∧
    ((findPeaks powers).length < MAX_TRACKED_SINES →
      bestBin powers (usedFor powers (findPeaks powers)) = none) ∧
    (∀ (used : List Bool) (b : ℕ), bestBin powers used = some b →
      isCandidate powers used b ∧
        ∀ j, isCandidate powers used j → powers.getD j 0 ≤ powers.getD b 0) ∧
    (∀ used : List Bool, bestBin powers used = none → ∀ j, ¬ isCandidate powers used j) ∧
    (∀ (used : List Bool) (b j : ℕ), j < used.length →
      (markUsed used b).getD j false =
        (if b ≤ j + PEAK_SUPPRESS_BINS ∧ j ≤ b + PEAK_SUPPRESS_BINS then true
         else used.getD j false)) ∧
    (processPeaks low high powers total now tracks =
      (qualifiedPeaks low high powers total).foldl
        (fun ts fp => update_track ts fp.1 fp.2 now) tracks) ∧
    (∀ fp ∈ qualifiedPeaks low high powers total,
      DETECT_THRESHOLD < fp.2 ∧ low ≤ fp.1 ∧ fp.1 ≤ high ∧
        ∃ idx ∈ findPeaks powers,
          fp = ((idx : ℚ) * freq_resolution, peakPower powers idx / total)) := by
  refine ⟨findPeaksAux_length powers MAX_TRACKED_SINES _, ?_, ?_, ?_, ?_, ?_,
    processPeaks_eq_qualified low high powers total now tracks, ?_⟩
  · intro i hi
    exact findPeaksAux_round powers MAX_TRACKED_SINES _ i hi
  · intro hlt
    exact findPeaksAux_stop powers MAX_TRACKED_SINES _ hlt
  · intro used b hb
    exact bestBin_some_spec powers used b hb
  · intro used hn
    exact bestBin_none_spec powers used hn
  · intro used b j hj
    exact markUsed_getD used b j hj
  · intro fp hfp
    obtain ⟨_, hth, hlow, hhigh, hex⟩ := qualifiedPeaks_mem low high powers total fp hfp
    exact ⟨hth, hlow, hhigh, hex⟩

/-- Concrete instance of C2: a spectrum with local maxima at bins 5 and 2
yields exactly those two peaks (strongest first), suppression then leaves
no further candidate, so extraction stops after two rounds. -/
theorem c2_peak_extraction_witness :
    findPeaks [0, 0, 4, 1, 0, 8, 0, 0] = [5, 2] ∧
    bestBin [0, 0, 4, 1, 0, 8, 0, 0]
      (usedFor [0, 0, 4, 1, 0, 8, 0, 0] (findPeaks [0, 0, 4, 1, 0, 8, 0, 0])) = none := by
  have heval : findPeaks [0, 0, 4, 1, 0, 8, 0, 0] = [5, 2] := by
    norm_num [findPeaks, findPeaksAux, bestBin, bestAux, markUsed, markFrom, usedFoldFrom,
      PEAK_SUPPRESS_BINS, MAX_TRACKED_SINES, List.range', List.getD, List.replicate]
  have h := c2_peak_extraction 20 20000 [0, 0, 4, 1, 0, 8, 0, 0] 13 0 []
  refine ⟨heval, h.2.2.1 ?_⟩
  rw [heval]
  norm_num [MAX_TRACKED_SINES]

/-! ### Claim C1 -/

/-- C1 (code behaviour at the failing input): with the default 200 ms
persistence threshold, a tone whose qualifying peaks appear only in the
single frame at `now = 1000` (a span of 0 ms, strictly shorter than the
threshold) claims slot 0 as pending, the following all-zero frame at
`now = 1200` contributes no qualifying peak (zero total power), and yet
the state machine sets the slot's `active` flag — activation depends
only on the time elapsed since the slot was claimed, not on the tone
persisting. -/
theorem c1_activation_without_persistence :
    ((processFrame cfgDefault toneRaw 1000 initState).tracks.getD 0 emptyTrack).active =
        false ∧
    ((processFrame cfgDefault toneRaw 1000 initState).tracks.getD 0 emptyTrack).start_time =
        1000 ∧
    frameTotalPower cfgDefault silenceRaw (processFrame cfgDefault toneRaw 1000 initState) =
        0 ∧
    ((processFrame cfgDefault silenceRaw 1200
        (processFrame cfgDefault toneRaw 1000 initState)).tracks.getD 0 emptyTrack).active =
      true := by
  refine ⟨?_, ?_, ?_, ?_⟩ <;>
    norm_num [processFrame, framePowers, frameDetPowers, frameTotalPower, frameMagnitudes,
      filterFrom, maskedPower, squelchBin, processPeaks, peakStep, qualifies, peakPower,
      update_track, findFirstIdx, trackMatches, smoothedUpdate, freshTrack, stepTracks,
      stepTrack, classifySymbol, updatedDot, appendSymbol, findPeaks, findPeaksAux, bestBin,
      bestAux, markUsed, markFrom, usedFoldFrom, initState, cfgDefault, toneRaw, silenceRaw,
      emptyTrack, freq_resolution, SAMPLE_RATE, FFT_SIZE, halfSize, DETECT_THRESHOLD,
      FREQUENCY_TOLERANCE, PEAK_SUPPRESS_BINS, MAX_TRACKED_SINES, MORSE_BUFFER_SIZE,
      DOT_EST_ALPHA, AVERAGING_ALPHA, max_possible_power, List.range', List.getD,
      tail_replicate_eq, getD_replicate_zero, replicate_five]

/-! ### Claim C7 -/

/-- C7 (counterexample): with squelch enabled at threshold 1.0, a frame
whose bin 2 carries exactly `max_possible_power` is NOT zeroed — its
clamped normalised magnitude equals 1, the strict test `norm < 1` fails,
the detection power survives, and a track is produced — refuting the
claim that threshold 1.0 zeroes every frame's detection powers and
magnitudes so that no track is ever produced for any input. -/
theorem c7_squelch_counterexample :
    (processFrame cfgSquelchOne fullScaleRaw 1000 initState).magnitudes.getD 2 0 = 1 ∧
    (frameDetPowers cfgSquelchOne fullScaleRaw initState).getD 2 0 = 262144 ∧
    ((processFrame cfgSquelchOne fullScaleRaw 1000 initState).tracks.getD 0
        emptyTrack).start_time = 1000 := by
  refine ⟨?_, ?_, ?_⟩ <;>
    norm_num [processFrame, framePowers, frameDetPowers, frameTotalPower, frameMagnitudes,
      filterFrom, maskedPower, squelchBin, processPeaks, peakStep, qualifies, peakPower,
      update_track, findFirstIdx, trackMatches, smoothedUpdate, freshTrack, stepTracks,
      stepTrack, classifySymbol, updatedDot, appendSymbol, findPeaks, findPeaksAux, bestBin,
      bestAux, markUsed, markFrom, usedFoldFrom, initState, cfgDefault, cfgSquelchOne,
      fullScaleRaw, emptyTrack, freq_resolution, SAMPLE_RATE, FFT_SIZE, halfSize,
      DETECT_THRESHOLD, FREQUENCY_TOLERANCE, PEAK_SUPPRESS_BINS, MAX_TRACKED_SINES,
      MORSE_BUFFER_SIZE, DOT_EST_ALPHA, AVERAGING_ALPHA, max_possible_power, List.range',
      List.getD, tail_replicate_eq, getD_replicate_zero, replicate_five]

/-- C7 (amended): squelch at threshold 1.0 zeroes exactly the bins whose
filtered power is strictly below `max_possible_power`, so a frame with
every bin below full scale has zero total power, no qualifying peaks and
no matching-induced track change (full-scale bins, whose clamped
normalised magnitude equals 1, survive — see the counterexample); and
squelch enabled at threshold 0.0 is a no-op versus squelch disabled on
the nonnegative powers the pipeline produces. -/
theorem c7_squelch_amended :
    (∀ p : ℚ, p < max_possible_power → squelchBin true 1 p = (0, 0)) ∧
    (∀ (cfg : Config) (raw : List ℚ) (s : DetState) (now : ℕ),
      cfg.squelch_enabled = true → cfg.squelch_threshold = 1 →
      (∀ x ∈ framePowers cfg raw s, x < max_possible_power) →
      frameTotalPower cfg raw s = 0 ∧
      qualifiedPeaks cfg.bandpass_low_hz cfg.bandpass_high_hz (frameDetPowers cfg raw s)
        (frameTotalPower cfg raw s) = [] ∧
      (processFrame cfg raw now s).tracks =
        (stepTracks cfg.persistence_threshold_ms now s.tracks s.morse).1) ∧
    (∀ (cfg : Config) (raw : List ℚ) (now : ℕ) (s : DetState),
      cfg.squelch_enabled = false → (∀ x ∈ raw, 0 ≤ x) → (∀ x ∈ s.avg_powers, 0 ≤ x) →
      processFrame cfg raw now s =
        processFrame { cfg with squelch_enabled := true, squelch_threshold := 0 }
          raw now s) := by
  refine ⟨fun p hp => squelchBin_one_below p hp, ?_, ?_⟩
  · intro cfg raw s now hsq hth hbelow
    have htot : frameTotalPower cfg raw s = 0 := by
      unfold frameTotalPower
      apply List.sum_eq_zero
      intro x hx
      unfold frameDetPowers at hx
      rw [List.mem_map] at hx
      obtain ⟨p, hpmem, hpx⟩ := hx
      rw [hsq, hth, squelchBin_one_below p (hbelow p hpmem)] at hpx
      exact hpx.symm
    refine ⟨htot, ?_, ?_⟩
    · unfold qualifiedPeaks
      rw [if_pos htot]
    · show (stepTracks cfg.persistence_threshold_ms now
          (processPeaks cfg.bandpass_low_hz cfg.bandpass_high_hz (frameDetPowers cfg raw s)
            (frameTotalPower cfg raw s) now s.tracks) s.morse).1 = _
      rw [show processPeaks cfg.bandpass_low_hz cfg.bandpass_high_hz
          (frameDetPowers cfg raw s) (frameTotalPower cfg raw s) now s.tracks = s.tracks from
        foldl_peaks_total_zero _ _ _ _ _ htot _ _]
  · intro cfg raw now s hsq hraw havg
    have hnn : ∀ x ∈ framePowers cfg raw s, 0 ≤ x :=
      filterFrom_nonneg cfg.averaging_enabled cfg.bandpass_low_hz cfg.bandpass_high_hz
        raw 0 s.avg_powers hraw havg
    have hbin : ∀ p ∈ framePowers cfg raw s,
        squelchBin cfg.squelch_enabled cfg.squelch_threshold p = squelchBin true 0 p := by
      intro p hp
      rw [hsq]
      exact squelchBin_off_eq_zero_threshold cfg.squelch_threshold p (hnn p hp)
    have hpw : framePowers { cfg with squelch_enabled := true, squelch_threshold := 0 }
        raw s = framePowers cfg raw s := rfl
    have hdet : frameDetPowers cfg raw s =
        frameDetPowers { cfg with squelch_enabled := true, squelch_threshold := 0 } raw s := by
      unfold frameDetPowers
      rw [hpw]
      exact List.map_congr_left fun p hp => by rw [hbin p hp]
    have hmag : frameMagnitudes cfg raw s =
        frameMagnitudes { cfg with squelch_enabled := true, squelch_threshold := 0 } raw s := by
      unfold frameMagnitudes
      rw [hpw]
      exact List.map_congr_left fun p hp => by rw [hbin p hp]
    have htot : frameTotalPower cfg raw s =
        frameTotalPower { cfg with squelch_enabled := true, squelch_threshold := 0 } raw s := by
      unfold frameTotalPower
      rw [hdet]
    simp only [processFrame]
    rw [hdet, hmag, htot, hpw]

/-- Concrete instance of the amended C7: a below-full-scale bin is
zeroed at threshold 1.0 (the tone frame's total power collapses to 0),
and on an all-zero frame the squelch-at-0 run equals the squelch-off
run. -/
theorem c7_squelch_amended_witness :
    squelchBin true 1 100 = (0, 0) ∧
    frameTotalPower cfgSquelchOne toneRaw initState = 0 ∧
    processFrame cfgDefault silenceRaw 1000 initState =
      processFrame { cfgDefault with squelch_enabled := true, squelch_threshold := 0 }
        silenceRaw 1000 initState := by
  have h := c7_squelch_amended
  refine ⟨h.1 100 (by norm_num [max_possible_power, FFT_SIZE]), ?_, ?_⟩
  · have hfp : framePowers cfgSquelchOne toneRaw initState = [0, 0, 100, 0] := by
      norm_num [framePowers, filterFrom, maskedPower, cfgSquelchOne, cfgDefault, toneRaw,
        initState, tail_replicate_eq, getD_replicate_zero, freq_resolution, SAMPLE_RATE,
        FFT_SIZE, halfSize]
    refine (h.2.1 cfgSquelchOne toneRaw initState 1000 rfl rfl ?_).1
    intro x hx
    rw [hfp] at hx
    simp only [List.mem_cons, List.mem_singleton] at hx
    rcases hx with rfl | rfl | rfl | rfl | hx
    · norm_num [max_possible_power, FFT_SIZE]
    · norm_num [max_possible_power, FFT_SIZE]
    · norm_num [max_possible_power, FFT_SIZE]
    · norm_num [max_possible_power, FFT_SIZE]
    · simp at hx
  · refine h.2.2 cfgDefault silenceRaw 1000 initState rfl ?_ ?_
    · intro x hx
      simp only [silenceRaw, List.mem_cons, List.mem_singleton] at hx
      rcases hx with rfl | rfl | rfl | rfl | hx
      · exact le_refl 0
      · exact le_refl 0
      · exact le_refl 0
      · exact le_refl 0
      · simp at hx
    · intro x hx
      have hx' : x = 0 := by
        have : x ∈ List.replicate halfSize (0 : ℚ) := hx
        exact List.eq_of_mem_replicate this
      rw [hx']
